import Mathlib

/-!
# Verification of the stack arena allocator and the sentinel-ring list

Shallow embedding of `src/stackallocator.h`:

* `StackAllocator` (lines 15-59): a bump allocator over a `StackStorage<N>`
  byte buffer.  The storage is modelled by its cursor `used : Nat` (the
  `size` field); pointers into the buffer are modelled by their byte offset
  from `data`.  `size_t` arithmetic wraps modulo `2 ^ 64`, so every binary
  operation the source performs on `size_t` values is taken `% sizeTMod`.
  `sizeof(T)` and `alignof(T)` become explicit parameters `sz` and `al`.

* `List<T, Allocator>` (lines 62-336): a circular doubly linked list with an
  in-place sentinel.  Node memory is modelled as an association list from
  abstract addresses (`Nat`) to node records; the node allocator is modelled
  by a monotone fresh-address counter plus the list of currently live
  (allocated, not yet deallocated) node addresses, which makes leaks and
  double frees observable.  Element-construction failure and allocator
  failure are injected through an explicit `Fm` mode per call, matching the
  two `throw` sites the source can hit inside `insert`/`emplace_back`.
-/

/-! ## The arena allocator (`StackAllocator`, src/stackallocator.h lines 6-59) -/

/-- The modulus of `size_t` arithmetic on the (64-bit) target platform. -/
def sizeTMod : Nat := 2 ^ 64

/-- src/stackallocator.h lines 40-43: the padding computed by `allocate`,
`padding = st->size % alignof(T); if (padding > 0) padding = alignof(T) - padding;`. -/
def padOf (al used : Nat) : Nat :=
  if 0 < used % al then al - used % al else used % al

/-- src/stackallocator.h lines 39-51, `StackAllocator<T, N>::allocate(count)`
with `al = alignof(T)`, `sz = sizeof(T)`, cursor `used = st->size`.
Returns `none` when the source throws `std::bad_alloc`, otherwise
`some (ptr, used2)` where `ptr` is the byte offset of the returned pointer
and `used2` the new cursor.  Every `size_t` addition/multiplication of the
source is taken `% sizeTMod`. -/
def allocate (al sz N used count : Nat) : Option (Nat × Nat) :=
  if N < ((used + (count * sz) % sizeTMod) % sizeTMod + padOf al used) % sizeTMod then
    none
  else
    some ((used + padOf al used) % sizeTMod,
      ((used + padOf al used) % sizeTMod + (count * sz) % sizeTMod) % sizeTMod)

/-- src/stackallocator.h lines 53-57, `StackAllocator<T, N>::deallocate(ptr, count)`:
roll the cursor back by `count * sizeof(T)` exactly when
`ptr + count` (pointer arithmetic, i.e. offset `ptr + count * sz`)
coincides with `data + st->size`; otherwise do nothing.  The subtraction
mirrors `st->size -= count * sizeof(T)` on `size_t`.  The tail comparison
is written in plain `Nat`: the source's `ptr + count` is pointer
arithmetic, which C++ defines only while the result stays within (or one
past) the `data` array — on every such in-bounds call the address
computation cannot wrap, so the mathematical sum is exact; a call whose
region reaches past the buffer has no defined source behavior to embed. -/
def deallocate (sz used ptr count : Nat) : Nat :=
  if ptr + count * sz = used then used - (count * sz) % sizeTMod else used

/-- One allocation request: the element type's alignment and size, and the
element count, for a call `allocate(count)` on a rebound handle. -/
structure Req where
  al : Nat
  sz : Nat
  count : Nat
deriving DecidableEq, Repr

/-- Run a sequence of `allocate` calls against one shared storage, returning
the final cursor if every call succeeds. -/
def allocSeq (N used : Nat) : List Req → Option Nat
  | [] => some used
  | r :: rs =>
    match allocate r.al r.sz N used r.count with
    | none => none
    | some (_, u) => allocSeq N u rs

/-- The mathematical cursor after serving a request sequence: each request
consumes its alignment padding plus `count * sz` bytes. -/
def alignedTotal (used : Nat) : List Req → Nat
  | [] => used
  | r :: rs => alignedTotal (used + padOf r.al used + r.count * r.sz) rs

theorem padOf_lt (al used : Nat) (hal : 0 < al) : padOf al used < al := by
  unfold padOf
  rcases Nat.eq_zero_or_pos (used % al) with h | h
  · simp [h, hal]
  · simp only [h, if_pos]
    omega

theorem padOf_align (al used : Nat) (hal : 0 < al) : (used + padOf al used) % al = 0 := by
  unfold padOf
  rcases Nat.eq_zero_or_pos (used % al) with h | h
  · simp [h, Nat.add_mod, h]
  · have hlt : used % al < al := Nat.mod_lt _ hal
    simp only [h, if_pos]
    have h2 := Nat.div_add_mod used al
    have h3 : (used / al + 1) * al = al * (used / al) + al := by ring
    have h4 : used + (al - used % al) = (used / al + 1) * al := by omega
    rw [h4, Nat.mul_mod_left]

/-- `allocate` without overflow, success case: if the padded request fits,
the cursor advances by the padding, the returned pointer is the cursor at
that point, and then the cursor advances by `count * sz`. -/
theorem allocate_fits (al sz N used count : Nat) (hal : 0 < al) (hN : N < sizeTMod)
    (hfit : used + padOf al used + count * sz ≤ N) :
    allocate al sz N used count =
      some (used + padOf al used, used + padOf al used + count * sz) := by
  unfold allocate
  have hcs : count * sz < sizeTMod := by omega
  have h1 : (count * sz) % sizeTMod = count * sz := Nat.mod_eq_of_lt hcs
  have h2 : (used + count * sz) % sizeTMod = used + count * sz := by
    apply Nat.mod_eq_of_lt; omega
  have h3 : (used + count * sz + padOf al used) % sizeTMod
      = used + count * sz + padOf al used := by
    apply Nat.mod_eq_of_lt; omega
  have h4 : (used + padOf al used) % sizeTMod = used + padOf al used := by
    apply Nat.mod_eq_of_lt; omega
  have h5 : (used + padOf al used + count * sz) % sizeTMod
      = used + padOf al used + count * sz := by
    apply Nat.mod_eq_of_lt; omega
  rw [h1, h2, h3]
  have hcond : ¬ N < used + count * sz + padOf al used := by omega
  rw [if_neg hcond, h4, h5]

/-- `allocate` without overflow, failure case: if the padded request does not
fit, the call fails (throws `std::bad_alloc`) and, being a pure read up to
that point, leaves the cursor unchanged. -/
theorem allocate_overfull (al sz N used count : Nat)
    (hwrap : used + padOf al used + count * sz < sizeTMod)
    (hov : N < used + padOf al used + count * sz) :
    allocate al sz N used count = none := by
  unfold allocate
  have h1 : (count * sz) % sizeTMod = count * sz := by
    apply Nat.mod_eq_of_lt; omega
  have h2 : (used + count * sz) % sizeTMod = used + count * sz := by
    apply Nat.mod_eq_of_lt; omega
  have h3 : (used + count * sz + padOf al used) % sizeTMod
      = used + count * sz + padOf al used := by
    apply Nat.mod_eq_of_lt; omega
  rw [h1, h2, h3]
  have hcond : N < used + count * sz + padOf al used := by omega
  rw [if_pos hcond]

theorem alignedTotal_le (reqs : List Req) : ∀ used, used ≤ alignedTotal used reqs := by
  induction reqs with
  | nil => intro used; exact Nat.le_refl _
  | cons r rs ih =>
    intro used
    have := ih (used + padOf r.al used + r.count * r.sz)
    calc used ≤ used + padOf r.al used + r.count * r.sz := by omega
      _ ≤ _ := this

/-- Capacity invariant: a request sequence whose mathematical aligned total
stays within `N` succeeds call by call, and the final cursor is exactly that
total. -/
theorem allocSeq_fits (N : Nat) (hN : N < sizeTMod) (reqs : List Req)
    (hal : ∀ r ∈ reqs, 0 < r.al) :
    ∀ used, alignedTotal used reqs ≤ N →
      allocSeq N used reqs = some (alignedTotal used reqs) := by
  induction reqs with
  | nil => intro used _; rfl
  | cons r rs ih =>
    intro used htot
    have hr : 0 < r.al := hal r (List.mem_cons_self r rs)
    have hrs : ∀ x ∈ rs, 0 < x.al := fun x hx => hal x (List.mem_cons_of_mem r hx)
    have hstep : used + padOf r.al used + r.count * r.sz ≤ N := by
      have := alignedTotal_le rs (used + padOf r.al used + r.count * r.sz)
      have htot' : alignedTotal (used + padOf r.al used + r.count * r.sz) rs ≤ N := htot
      omega
    unfold allocSeq
    rw [allocate_fits r.al r.sz N used r.count hr hN hstep]
    exact ih hrs _ htot

/-! ## The list model (`List<T, Allocator>`, src/stackallocator.h lines 62-336)

Node memory is an association list `Mem T` from abstract addresses to node
records; the most recently written entry for an address is the first one,
and well-formed states have no duplicate addresses.  A `List` object is its
sentinel's address (`data` is an in-place member, so it gets an address of
its own), its stored `sz`, and an allocator tag.  The node allocator is a
fresh-address counter plus the multiset of live node allocations. -/

namespace LM

/-- One node record: `BaseNode::prev`, `BaseNode::next` (addresses) and the
stored `Node::key` (`none` on the payload-free sentinel `BaseNode`). -/
structure NodeData (T : Type) where
  prev : Nat
  next : Nat
  key : Option T
deriving DecidableEq, Repr

/-- Node memory: address-keyed association list, newest entry first. -/
abbrev Mem (T : Type) := List (Nat × NodeData T)

/-- Read the node stored at address `a`. -/
def lookupF {T : Type} : Mem T → Nat → Option (NodeData T)
  | [], _ => none
  | (b, nd) :: rest, a => if a = b then some nd else lookupF rest a

/-- The addresses present in a memory. -/
def keys {T : Type} (mem : Mem T) : List Nat := mem.map Prod.fst

/-- Write the `next` field of the node at address `a` (models `p->next = nx`). -/
def setNextF {T : Type} : Mem T → Nat → Nat → Mem T
  | [], _, _ => []
  | (b, nd) :: rest, a, nx =>
    (b, if b = a then { nd with next := nx } else nd) :: setNextF rest a nx

/-- Write the `prev` field of the node at address `a` (models `p->prev = pv`). -/
def setPrevF {T : Type} : Mem T → Nat → Nat → Mem T
  | [], _, _ => []
  | (b, nd) :: rest, a, pv =>
    (b, if b = a then { nd with prev := pv } else nd) :: setPrevF rest a pv

/-- Drop the node at address `a` (models destroying + deallocating it). -/
def removeEntry {T : Type} : Mem T → Nat → Mem T
  | [], _ => []
  | (b, nd) :: rest, a =>
    if b = a then removeEntry rest a else (b, nd) :: removeEntry rest a

/-- The whole-program node state: memory, the addresses currently held from
the node allocator (live allocations), and the fresh-address counter. -/
structure LState (T : Type) where
  mem : Mem T
  live : List Nat
  next : Nat
deriving DecidableEq, Repr

/-- One `List` object: sentinel address (`&data`), stored `sz`, and the
allocator tag (identity of the allocator handle, for propagation-on-copy). -/
structure LObj where
  sent : Nat
  sz : Nat
  alloc : Nat
deriving DecidableEq, Repr

/-- Failure mode injected into one node-creating call: `ok` (no failure),
`oom` (`NodeTraits::allocate` throws, line 88/302), `bad`
(`NodeTraits::construct` of the element throws, line 90/304). -/
inductive Fm where
  | ok
  | oom
  | bad
deriving DecidableEq, Repr

/-- Result of a node-creating call: normal return, or an error propagating
out with the node state as the operation left it. -/
inductive IRes (T : Type) where
  | ok (S : LState T) (L : LObj) (it : Nat)
  | thrown (S : LState T)
deriving DecidableEq, Repr

/-- `List()` / `List(alloc)` (src lines 114-116): an empty list; the in-place
sentinel `data` occupies a fresh address and is its own neighbour. -/
def newList {T : Type} (S : LState T) (tag : Nat) : LState T × LObj :=
  (⟨(S.next, ⟨S.next, S.next, none⟩) :: S.mem, S.live, S.next + 1⟩,
   ⟨S.next, 0, tag⟩)

/-- src lines 301-314, `List::insert(iter, value)` (also the body of
`emplace_back`, lines 87-99, whose link updates are identical):
allocate a node, construct it with links `(iter.item->prev, iter.item)`,
then `iter.item->prev->next = it; iter.item->prev = it; ++sz`.
On construction failure the node is deallocated and the error propagates
with list memory untouched; on allocation failure nothing happened at all. -/
def insertM {T : Type} (S : LState T) (L : LObj) (pos : Nat) (v : T) (fm : Fm) :
    IRes T :=
  match fm with
  | .oom => .thrown S
  | _ =>
    match lookupF S.mem pos with
    | none => .thrown S
    | some posN =>
      if fm = .bad then
        .thrown ⟨S.mem, S.live, S.next + 1⟩
      else
        .ok ⟨setPrevF (setNextF ((S.next, ⟨posN.prev, pos, some v⟩) :: S.mem)
                posN.prev S.next) pos S.next,
             S.next :: S.live, S.next + 1⟩
           ⟨L.sent, L.sz + 1, L.alloc⟩ S.next

/-- src lines 316-325, `List::erase(iter)`: unlink
(`it->prev = iter.item->prev; iter.item->prev->next = it`), destroy and
deallocate the node, `--sz`; returns the follower.  `none` when the iterator
does not designate a node (undefined behaviour in the source). -/
def eraseM {T : Type} (S : LState T) (L : LObj) (pos : Nat) :
    Option (LState T × LObj × Nat) :=
  match lookupF S.mem pos with
  | none => none
  | some posN =>
    some (⟨removeEntry (setNextF (setPrevF S.mem posN.next posN.prev)
              posN.prev posN.next) pos,
           S.live.erase pos, S.next⟩,
          ⟨L.sent, L.sz - 1, L.alloc⟩, posN.next)

/-- src lines 101-109, the loop of `List::destroy()`: walk `next` links from
`cur` until `stop` (`&data`), destroying and deallocating every node met.
Fuel-bounded; on a well-formed ring `mem.length` steps always suffice. -/
def destroyFrom {T : Type} : Mem T → List Nat → Nat → Nat → Nat →
    Mem T × List Nat
  | mem, live, _, _, 0 => (mem, live)
  | mem, live, cur, stop, fuel + 1 =>
    if cur = stop then (mem, live)
    else
      match lookupF mem cur with
      | none => (mem, live)
      | some nd => destroyFrom (removeEntry mem cur) (live.erase cur) nd.next stop fuel

/-- `List::destroy()` on object `L`: start the walk at `data.next`. -/
def destroyList {T : Type} (S : LState T) (L : LObj) : Mem T × List Nat :=
  match lookupF S.mem L.sent with
  | none => (S.mem, S.live)
  | some nd => destroyFrom S.mem S.live nd.next L.sent (S.mem.length + 1)

/-- src lines 327-331, `List::clear()`: destroy all nodes, re-tie the
sentinel to itself, reset `sz`. -/
def clearM {T : Type} (S : LState T) (L : LObj) : LState T × LObj :=
  match destroyList S L with
  | (m, lv) =>
    (⟨setNextF (setPrevF m L.sent L.sent) L.sent L.sent, lv, S.next⟩,
     ⟨L.sent, 0, L.alloc⟩)

/-- src lines 333-335, `~List()`: destroy every node; the in-place sentinel
then dies with the object, so its address leaves the memory as well. -/
def dtorList {T : Type} (S : LState T) (L : LObj) : LState T :=
  match destroyList S L with
  | (m, lv) => ⟨removeEntry m L.sent, lv, S.next⟩

/-- Walk `i` `next`-links from address `a` (iterator increment, lines 206-209). -/
def walkN {T : Type} (mem : Mem T) : Nat → Nat → Option Nat
  | a, 0 => some a
  | a, i + 1 =>
    match lookupF mem a with
    | none => none
    | some nd => walkN mem nd.next i

/-- Count the nodes met walking `next` links from `cur` until `stop`;
`none` when the walk runs out of fuel or leaves the memory. -/
def walkLen {T : Type} (mem : Mem T) : Nat → Nat → Nat → Option Nat
  | _, _, 0 => none
  | cur, stop, fuel + 1 =>
    if cur = stop then some 0
    else
      match lookupF mem cur with
      | none => none
      | some nd => (walkLen mem nd.next stop fuel).map (· + 1)

/-- The number of elements reached iterating from `begin()` to `end()`:
walk from `sentinel.next` back to the sentinel. -/
def ringLen {T : Type} (mem : Mem T) (sent : Nat) : Option Nat :=
  match lookupF mem sent with
  | none => none
  | some nd => walkLen mem nd.next sent (mem.length + 1)

/-- The element values met iterating from `begin()` to `end()`. -/
def elemsFrom {T : Type} (mem : Mem T) : Nat → Nat → Nat → Option (List T)
  | _, _, 0 => none
  | cur, stop, fuel + 1 =>
    if cur = stop then some []
    else
      match lookupF mem cur with
      | none => none
      | some nd =>
        match nd.key with
        | none => none
        | some v => (elemsFrom mem nd.next stop fuel).map (v :: ·)

/-- `[*begin(), ..., *--end()]` for the list object `L`. -/
def elemsOf {T : Type} (mem : Mem T) (sent : Nat) : Option (List T) :=
  match lookupF mem sent with
  | none => none
  | some nd => elemsFrom mem nd.next sent (mem.length + 1)

end LM

/-! ## Memory primitives: lookup/update/remove lemmas -/

namespace LM

variable {T : Type}

@[simp] theorem keys_nil : keys ([] : Mem T) = [] := rfl

@[simp] theorem keys_cons (b : Nat) (nd : NodeData T) (rest : Mem T) :
    keys ((b, nd) :: rest) = b :: keys rest := rfl

theorem keys_append (P M : Mem T) : keys (P ++ M) = keys P ++ keys M := by
  simp [keys]

theorem lookupF_setNextF (mem : Mem T) (a nx c : Nat) :
    lookupF (setNextF mem a nx) c =
      if c = a then (lookupF mem a).map (fun nd => { nd with next := nx })
      else lookupF mem c := by
  induction mem with
  | nil => simp [lookupF, setNextF]
  | cons e rest ih =>
    obtain ⟨b, nd⟩ := e
    simp only [setNextF, lookupF]
    by_cases hcb : c = b
    · subst hcb
      by_cases hca : c = a
      · subst hca; simp [lookupF]
      · simp [lookupF, hca]
    · by_cases hca : c = a
      · subst hca
        simp [lookupF, hcb, ih, Ne.symm hcb]
      · simp [lookupF, hcb, hca, ih]

theorem lookupF_setPrevF (mem : Mem T) (a pv c : Nat) :
    lookupF (setPrevF mem a pv) c =
      if c = a then (lookupF mem a).map (fun nd => { nd with prev := pv })
      else lookupF mem c := by
  induction mem with
  | nil => simp [lookupF, setPrevF]
  | cons e rest ih =>
    obtain ⟨b, nd⟩ := e
    simp only [setPrevF, lookupF]
    by_cases hcb : c = b
    · subst hcb
      by_cases hca : c = a
      · subst hca; simp [lookupF]
      · simp [lookupF, hca]
    · by_cases hca : c = a
      · subst hca
        simp [lookupF, hcb, ih, Ne.symm hcb]
      · simp [lookupF, hcb, hca, ih]

theorem lookupF_removeEntry (mem : Mem T) (a c : Nat) :
    lookupF (removeEntry mem a) c = if c = a then none else lookupF mem c := by
  induction mem with
  | nil => simp [lookupF, removeEntry]
  | cons e rest ih =>
    obtain ⟨b, nd⟩ := e
    simp only [removeEntry]
    by_cases hba : b = a
    · subst hba
      by_cases hcb : c = b
      · subst hcb; simp [ih]
      · simp [lookupF, hcb, ih]
    · by_cases hcb : c = b
      · subst hcb
        simp [lookupF, hba]
      · simp [lookupF, hba, hcb, ih]

end LM

namespace LM

variable {T : Type}

theorem keys_setNextF (mem : Mem T) (a nx : Nat) :
    keys (setNextF mem a nx) = keys mem := by
  induction mem with
  | nil => rfl
  | cons e rest ih =>
    obtain ⟨b, nd⟩ := e
    simp [setNextF, keys_cons, ih]

theorem keys_setPrevF (mem : Mem T) (a pv : Nat) :
    keys (setPrevF mem a pv) = keys mem := by
  induction mem with
  | nil => rfl
  | cons e rest ih =>
    obtain ⟨b, nd⟩ := e
    simp [setPrevF, keys_cons, ih]

theorem mem_keys_of_lookupF {mem : Mem T} {a : Nat} {nd : NodeData T}
    (h : lookupF mem a = some nd) : a ∈ keys mem := by
  induction mem with
  | nil => simp [lookupF] at h
  | cons e rest ih =>
    obtain ⟨b, nd'⟩ := e
    by_cases hb : a = b
    · subst hb; simp
    · simp only [lookupF, if_neg hb] at h
      simp [hb, ih h]

theorem lookupF_eq_none {mem : Mem T} {a : Nat} (h : a ∉ keys mem) :
    lookupF mem a = none := by
  induction mem with
  | nil => rfl
  | cons e rest ih =>
    obtain ⟨b, nd⟩ := e
    rw [keys_cons] at h
    have h1 : a ≠ b ∧ a ∉ keys rest := by
      constructor
      · intro hab; exact h (hab ▸ List.mem_cons_self b (keys rest))
      · intro hm; exact h (List.mem_cons_of_mem b hm)
    simp [lookupF, h1.1, ih h1.2]

theorem lookupF_isSome {mem : Mem T} {a : Nat} (h : a ∈ keys mem) :
    ∃ nd, lookupF mem a = some nd := by
  cases hl : lookupF mem a with
  | some nd => exact ⟨nd, rfl⟩
  | none =>
    by_cases hk : a ∈ keys mem
    · induction mem with
      | nil => simp at h
      | cons e rest ih =>
        obtain ⟨b, nd⟩ := e
        by_cases hb : a = b
        · subst hb; simp [lookupF] at hl
        · rw [keys_cons] at hk
          simp only [lookupF, if_neg hb] at hl
          have : a ∈ keys rest := by
            rcases List.mem_cons.mp hk with h1 | h1
            · exact absurd h1 hb
            · exact h1
          exact ih this hl this
    · exact absurd h hk

theorem lookupF_append_left {P : Mem T} (M : Mem T) {a : Nat} {nd : NodeData T}
    (h : lookupF P a = some nd) : lookupF (P ++ M) a = some nd := by
  induction P with
  | nil => simp [lookupF] at h
  | cons e rest ih =>
    obtain ⟨b, nd'⟩ := e
    by_cases hb : a = b
    · subst hb
      simp [lookupF] at h ⊢
      exact h
    · simp only [lookupF, if_neg hb] at h
      simpa [lookupF, hb] using ih h

theorem lookupF_append_right {P : Mem T} (M : Mem T) {a : Nat}
    (h : a ∉ keys P) : lookupF (P ++ M) a = lookupF M a := by
  induction P with
  | nil => rfl
  | cons e rest ih =>
    obtain ⟨b, nd'⟩ := e
    rw [keys_cons] at h
    have h1 : a ≠ b := fun hab => h (hab ▸ List.mem_cons_self b (keys rest))
    have h2 : a ∉ keys rest := fun hm => h (List.mem_cons_of_mem b hm)
    simpa [lookupF, h1] using ih h2

theorem setNextF_append (P M : Mem T) (a nx : Nat) :
    setNextF (P ++ M) a nx = setNextF P a nx ++ setNextF M a nx := by
  induction P with
  | nil => rfl
  | cons e rest ih =>
    obtain ⟨b, nd⟩ := e
    simp [setNextF, ih]

theorem setPrevF_append (P M : Mem T) (a pv : Nat) :
    setPrevF (P ++ M) a pv = setPrevF P a pv ++ setPrevF M a pv := by
  induction P with
  | nil => rfl
  | cons e rest ih =>
    obtain ⟨b, nd⟩ := e
    simp [setPrevF, ih]

theorem setNextF_id {mem : Mem T} {a : Nat} (h : a ∉ keys mem) (nx : Nat) :
    setNextF mem a nx = mem := by
  induction mem with
  | nil => rfl
  | cons e rest ih =>
    obtain ⟨b, nd⟩ := e
    rw [keys_cons] at h
    have h1 : a ≠ b := fun hab => h (hab ▸ List.mem_cons_self b (keys rest))
    have h2 : a ∉ keys rest := fun hm => h (List.mem_cons_of_mem b hm)
    simp [setNextF, Ne.symm h1, ih h2]

theorem setPrevF_id {mem : Mem T} {a : Nat} (h : a ∉ keys mem) (pv : Nat) :
    setPrevF mem a pv = mem := by
  induction mem with
  | nil => rfl
  | cons e rest ih =>
    obtain ⟨b, nd⟩ := e
    rw [keys_cons] at h
    have h1 : a ≠ b := fun hab => h (hab ▸ List.mem_cons_self b (keys rest))
    have h2 : a ∉ keys rest := fun hm => h (List.mem_cons_of_mem b hm)
    simp [setPrevF, Ne.symm h1, ih h2]

theorem removeEntry_append (P M : Mem T) (a : Nat) :
    removeEntry (P ++ M) a = removeEntry P a ++ removeEntry M a := by
  induction P with
  | nil => rfl
  | cons e rest ih =>
    obtain ⟨b, nd⟩ := e
    by_cases hb : b = a
    · simp [removeEntry, hb, ih]
    · simp [removeEntry, hb, ih]

theorem removeEntry_id {mem : Mem T} {a : Nat} (h : a ∉ keys mem) :
    removeEntry mem a = mem := by
  induction mem with
  | nil => rfl
  | cons e rest ih =>
    obtain ⟨b, nd⟩ := e
    rw [keys_cons] at h
    have h1 : a ≠ b := fun hab => h (hab ▸ List.mem_cons_self b (keys rest))
    have h2 : a ∉ keys rest := fun hm => h (List.mem_cons_of_mem b hm)
    simp [removeEntry, Ne.symm h1, ih h2]

theorem keys_removeEntry_sublist (mem : Mem T) (a : Nat) :
    List.Sublist (keys (removeEntry mem a)) (keys mem) := by
  induction mem with
  | nil => simp [removeEntry]
  | cons e rest ih =>
    obtain ⟨b, nd⟩ := e
    by_cases hb : b = a
    · simpa [removeEntry, hb] using ih.cons b
    · simpa [removeEntry, hb] using ih.cons₂ b

theorem not_mem_keys_removeEntry (mem : Mem T) (a : Nat) :
    a ∉ keys (removeEntry mem a) := by
  intro h
  obtain ⟨nd, hnd⟩ := lookupF_isSome h
  rw [lookupF_removeEntry] at hnd
  simp at hnd

end LM

/-! ## Ring well-formedness: the sentinel cycle as a `chain` of adjacencies -/

namespace LM

variable {T : Type}

/-- The `next` link stored at address `a`. -/
def nextOf (mem : Mem T) (a : Nat) : Option Nat := (lookupF mem a).map NodeData.next

/-- The `prev` link stored at address `a`. -/
def prevOf (mem : Mem T) (a : Nat) : Option Nat := (lookupF mem a).map NodeData.prev

/-- `x` and `y` are doubly linked neighbours: `x->next == y` and `y->prev == x`. -/
def adj (mem : Mem T) (x y : Nat) : Prop := nextOf mem x = some y ∧ prevOf mem y = some x

/-- `chain mem a xs b`: starting at `a`, the ring passes in order through the
addresses `xs` and then reaches `b`, with every consecutive pair doubly
linked.  `chain mem s rs s` states the invariant of `List`: the sentinel's
circular ring visits exactly `rs`. -/
def chain (mem : Mem T) : Nat → List Nat → Nat → Prop
  | a, [], b => adj mem a b
  | a, c :: cs, b => adj mem a c ∧ chain mem c cs b

/-- Global state sanity: addresses are unique in memory, and every address
in memory or on the live list is below the fresh counter. -/
def wfS (S : LState T) : Prop :=
  (keys S.mem).Nodup ∧ (∀ a ∈ keys S.mem, a < S.next) ∧ ∀ a ∈ S.live, a < S.next

/-- A well-formed list object: its sentinel ring passes through `rs` (all
distinct, sentinel included) and the stored `sz` is the ring length.
This is the "size() equals the walk from `sentinel.next` to `sentinel`"
invariant of the spec. -/
def wfL (S : LState T) (L : LObj) (rs : List Nat) : Prop :=
  chain S.mem L.sent rs L.sent ∧ (L.sent :: rs).Nodup ∧ L.sz = rs.length

theorem adj_congr {m m' : Mem T} {x y : Nat}
    (hn : nextOf m' x = nextOf m x) (hp : prevOf m' y = prevOf m y)
    (h : adj m x y) : adj m' x y := ⟨hn ▸ h.1, hp ▸ h.2⟩

/-- A chain only reads the `next` of its sources `a :: xs` and the `prev` of
its targets `xs ++ [b]`; any memory agreeing there carries the same chain. -/
theorem chain_congr {m m' : Mem T} {a b : Nat} {xs : List Nat}
    (hn : ∀ x ∈ a :: xs, nextOf m' x = nextOf m x)
    (hp : ∀ x ∈ xs ++ [b], prevOf m' x = prevOf m x)
    (h : chain m a xs b) : chain m' a xs b := by
  induction xs generalizing a with
  | nil =>
    exact adj_congr (hn a (List.mem_cons_self a [])) (hp b (by simp)) h
  | cons c cs ih =>
    obtain ⟨h1, h2⟩ := h
    constructor
    · exact adj_congr (hn a (List.mem_cons_self a _)) (hp c (by simp)) h1
    · refine ih (fun x hx => hn x ?_) (fun x hx => hp x ?_) h2
      · rcases List.mem_cons.mp hx with h | h
        · subst h; simp
        · simp [h]
      · rcases List.mem_append.mp hx with h | h
        · simp [h]
        · simp at h; simp [h]

theorem chain_append_iff (m : Mem T) (a y b : Nat) (xs ys : List Nat) :
    chain m a (xs ++ y :: ys) b ↔ chain m a xs y ∧ chain m y ys b := by
  induction xs generalizing a with
  | nil => simp [chain]
  | cons c cs ih =>
    simp only [List.cons_append, List.append_eq, chain, ih, and_assoc]

theorem chain_snoc_iff (m : Mem T) (a y b : Nat) (xs : List Nat) :
    chain m a (xs ++ [y]) b ↔ chain m a xs y ∧ adj m y b := by
  have := chain_append_iff m a y b xs []
  simpa [chain] using this

/-- The first hop of a chain: `a`'s `next` is the first listed address. -/
theorem chain_first {m : Mem T} {a b : Nat} {xs : List Nat} (h : chain m a xs b) :
    nextOf m a = some ((xs ++ [b]).headI) := by
  cases xs with
  | nil => exact h.1
  | cons c cs => exact h.1.1

/-- The last hop of a chain: `b`'s `prev` is the last listed address. -/
theorem chain_last {m : Mem T} {a b : Nat} {xs : List Nat} (h : chain m a xs b) :
    prevOf m b = some ((a :: xs).getLast (by simp)) := by
  induction xs generalizing a with
  | nil => exact h.2
  | cons c cs ih =>
    have h1 := ih h.2
    rw [h1]
    simp [List.getLast_cons]

/-- Every address a chain passes through is present in memory. -/
theorem chain_keys {m : Mem T} {a b : Nat} {xs : List Nat} (h : chain m a xs b) :
    ∀ x ∈ xs, x ∈ keys m := by
  induction xs generalizing a with
  | nil => intro x hx; simp at hx
  | cons c cs ih =>
    intro x hx
    rcases List.mem_cons.mp hx with h1 | h1
    · subst h1
      obtain ⟨_, hp⟩ := h.1
      unfold prevOf at hp
      cases hl : lookupF m x with
      | none => rw [hl] at hp; simp at hp
      | some nd => exact mem_keys_of_lookupF hl
    · exact ih h.2 x h1

/-- The source endpoint of a nonempty... of any chain is present in memory. -/
theorem chain_src_key {m : Mem T} {a b : Nat} {xs : List Nat} (h : chain m a xs b) :
    a ∈ keys m := by
  have h1 : nextOf m a = some ((xs ++ [b]).headI) := chain_first h
  unfold nextOf at h1
  cases hl : lookupF m a with
  | none => rw [hl] at h1; simp at h1
  | some nd => exact mem_keys_of_lookupF hl

/-- Retarget a chain's final hop: if memory changes only by (a) giving the
chain's last address the `next` link `c` and (b) giving `c` the `prev` link
back, the chain now ends at `c` instead of `b`. -/
theorem chain_retarget {m m' : Mem T} {a b c : Nat} {xs : List Nat}
    (h : chain m a xs b) (hnd : (a :: xs).Nodup)
    (hn : ∀ y ∈ a :: xs, y ≠ (a :: xs).getLast (by simp) → nextOf m' y = nextOf m y)
    (hlast : nextOf m' ((a :: xs).getLast (by simp)) = some c)
    (hp : ∀ y ∈ xs, prevOf m' y = prevOf m y)
    (hc : prevOf m' c = some ((a :: xs).getLast (by simp))) :
    chain m' a xs c := by
  induction xs generalizing a with
  | nil => exact ⟨hlast, hc⟩
  | cons d ds ih =>
    obtain ⟨h1, h2⟩ := h
    have hlast1 : (a :: d :: ds).getLast (by simp) = (d :: ds).getLast (by simp) := by
      simp [List.getLast]
    have hne : a ≠ (d :: ds).getLast (by simp) := by
      intro hEq
      have : (d :: ds).getLast (by simp) ∈ d :: ds := List.getLast_mem _
      rw [← hEq] at this
      exact (List.nodup_cons.mp hnd).1 this
    constructor
    · refine adj_congr ?_ ?_ h1
      · exact hn a (List.mem_cons_self _ _) (hlast1 ▸ hne)
      · exact hp d (List.mem_cons_self _ _)
    · refine ih h2 (List.nodup_cons.mp hnd).2 ?_ ?_ ?_ ?_
      · intro y hy hyne
        exact hn y (List.mem_cons_of_mem a hy) (by rw [hlast1]; exact hyne)
      · rw [← hlast1]; exact hlast
      · intro y hy; exact hp y (List.mem_cons_of_mem d hy)
      · rw [← hlast1]; exact hc

end LM

namespace LM

variable {T : Type}

theorem nextOf_setPrevF (m : Mem T) (a pv c : Nat) :
    nextOf (setPrevF m a pv) c = nextOf m c := by
  unfold nextOf
  rw [lookupF_setPrevF]
  by_cases h : c = a
  · subst h; cases lookupF m c <;> simp
  · simp [h]

theorem prevOf_setNextF (m : Mem T) (a nx c : Nat) :
    prevOf (setNextF m a nx) c = prevOf m c := by
  unfold prevOf
  rw [lookupF_setNextF]
  by_cases h : c = a
  · subst h; cases lookupF m c <;> simp
  · simp [h]

theorem nextOf_setNextF (m : Mem T) (a nx c : Nat) :
    nextOf (setNextF m a nx) c =
      if c = a then (lookupF m a).map (fun _ => nx) else nextOf m c := by
  unfold nextOf
  rw [lookupF_setNextF]
  by_cases h : c = a
  · subst h; cases lookupF m c <;> simp
  · simp [h]

theorem prevOf_setPrevF (m : Mem T) (a pv c : Nat) :
    prevOf (setPrevF m a pv) c =
      if c = a then (lookupF m a).map (fun _ => pv) else prevOf m c := by
  unfold prevOf
  rw [lookupF_setPrevF]
  by_cases h : c = a
  · subst h; cases lookupF m c <;> simp
  · simp [h]

theorem nextOf_cons (b : Nat) (nd : NodeData T) (m : Mem T) (c : Nat) :
    nextOf ((b, nd) :: m) c = if c = b then some nd.next else nextOf m c := by
  unfold nextOf
  by_cases h : c = b <;> simp [lookupF, h]

theorem prevOf_cons (b : Nat) (nd : NodeData T) (m : Mem T) (c : Nat) :
    prevOf ((b, nd) :: m) c = if c = b then some nd.prev else prevOf m c := by
  unfold prevOf
  by_cases h : c = b <;> simp [lookupF, h]

theorem nextOf_removeEntry (m : Mem T) (a c : Nat) :
    nextOf (removeEntry m a) c = if c = a then none else nextOf m c := by
  unfold nextOf
  rw [lookupF_removeEntry]
  by_cases h : c = a <;> simp [h]

theorem prevOf_removeEntry (m : Mem T) (a c : Nat) :
    prevOf (removeEntry m a) c = if c = a then none else prevOf m c := by
  unfold prevOf
  rw [lookupF_removeEntry]
  by_cases h : c = a <;> simp [h]

/-- Every address on a well-formed list's ring (sentinel included) is in memory. -/
theorem wfL_ring_keys {S : LState T} {L : LObj} {rs : List Nat} (hL : wfL S L rs) :
    ∀ x ∈ L.sent :: rs, x ∈ keys S.mem := by
  intro x hx
  rcases List.mem_cons.mp hx with h | h
  · subst h; exact chain_src_key hL.1
  · exact chain_keys hL.1 x h

end LM

namespace LM

variable {T : Type}

/-- The state a successful `insert` leaves behind (src lines 302-313): the
new node is constructed at the fresh address with links
`(iter.item->prev, iter.item)`, then `iter.item->prev->next` and
`iter.item->prev` are redirected to it, it joins the live set, and the fresh
counter advances. -/
def insertedState (S : LState T) (pos p : Nat) (v : T) : LState T :=
  ⟨setPrevF (setNextF ((S.next, ⟨p, pos, some v⟩) :: S.mem) p S.next) pos S.next,
   S.next :: S.live, S.next + 1⟩

/-- Unfolding `insertM` on the success path. -/
theorem insertM_eq_ok {S : LState T} {L : LObj} {pos : Nat} {v : T}
    {posN : NodeData T} (hlk : lookupF S.mem pos = some posN) :
    insertM S L pos v Fm.ok =
      IRes.ok (insertedState S pos posN.prev v) ⟨L.sent, L.sz + 1, L.alloc⟩ S.next := by
  simp [insertM, hlk, insertedState]

/-- `insert` at a valid position: success, and the ring gains exactly the
fresh node immediately before `pos`.  The valid positions are the ring
members and the sentinel (`end()`): `rs = l ++ r` and `pos` is the first
address of `r ++ [sentinel]`. -/
theorem insertM_ok_spec (S : LState T) (L : LObj) (rs l r : List Nat) (pos : Nat) (v : T)
    (hS : wfS S) (hL : wfL S L rs) (hsplit : rs = l ++ r)
    (hpos : pos = (r ++ [L.sent]).headI) :
    ∃ p, prevOf S.mem pos = some p ∧
      insertM S L pos v Fm.ok =
        IRes.ok (insertedState S pos p v) ⟨L.sent, L.sz + 1, L.alloc⟩ S.next ∧
      wfS (insertedState S pos p v) ∧
      wfL (insertedState S pos p v) ⟨L.sent, L.sz + 1, L.alloc⟩ (l ++ S.next :: r) ∧
      keys (insertedState S pos p v).mem = S.next :: keys S.mem ∧
      (insertedState S pos p v).live = S.next :: S.live ∧
      (insertedState S pos p v).next = S.next + 1 ∧
      p ∈ keys S.mem ∧ pos ∈ keys S.mem := by
  obtain ⟨hchain, hnodup, hsz⟩ := hL
  have hkeys : ∀ x ∈ L.sent :: rs, x ∈ keys S.mem := wfL_ring_keys ⟨hchain, hnodup, hsz⟩
  have hlt : ∀ x ∈ keys S.mem, x < S.next := hS.2.1
  have hfresh : ∀ x ∈ L.sent :: rs, x ≠ S.next := by
    intro x hx hEq
    exact absurd (hEq ▸ hlt x (hkeys x hx)) (lt_irrefl _)
  -- basic disjointness facts of the split ring
  have hndlr : (l ++ r).Nodup := by
    rw [← hsplit]; exact (List.nodup_cons.mp hnodup).2
  have hsentrs : L.sent ∉ rs := (List.nodup_cons.mp hnodup).1
  have hdisj : List.Disjoint l r := (List.nodup_append.mp hndlr).2.2
  have hsentl : L.sent ∉ l := fun h => hsentrs (hsplit ▸ List.mem_append_left r h)
  have hsentr : L.sent ∉ r := fun h => hsentrs (hsplit ▸ List.mem_append_right l h)
  have hsub : ∀ x ∈ L.sent :: l, x ∈ L.sent :: rs := by
    intro x hx
    rcases List.mem_cons.mp hx with h | h
    · simp [h]
    · simp [hsplit, h]
  have hrsub : ∀ x ∈ r, x ∈ L.sent :: rs := by
    intro x hx
    simp [hsplit, hx]
  have hnodupL : (L.sent :: l).Nodup :=
    List.nodup_cons.mpr ⟨hsentl, (List.nodup_append.mp hndlr).1⟩
  -- the chain up to `pos` and from `pos` back to the sentinel
  have hchains : chain S.mem L.sent l pos ∧
      (r = [] ∧ pos = L.sent ∨
       ∃ r1, r = pos :: r1 ∧ chain S.mem pos r1 L.sent) := by
    cases r with
    | nil =>
      constructor
      · have hps : pos = L.sent := by simpa using hpos
        rw [hps]
        simpa [hsplit] using hchain
      · exact Or.inl ⟨rfl, by simpa using hpos⟩
    | cons r0 r1 =>
      have hpos0 : pos = r0 := by simpa using hpos
      rw [hsplit, chain_append_iff] at hchain
      exact ⟨hpos0 ▸ hchain.1, Or.inr ⟨r1, by rw [hpos0], hpos0 ▸ hchain.2⟩⟩
  obtain ⟨hchainL, hrest⟩ := hchains
  -- membership and freshness of the splice points
  have hposmem : pos ∈ L.sent :: rs := by
    rcases hrest with ⟨_, hE⟩ | ⟨r1, hr, _⟩
    · simp [hE]
    · exact hrsub pos (by simp [hr])
  have hpmem : (L.sent :: l).getLast (by simp) ∈ L.sent :: rs :=
    hsub _ (List.getLast_mem _)
  have hpk : (L.sent :: l).getLast (by simp) ∈ keys S.mem := hkeys _ hpmem
  have hposk : pos ∈ keys S.mem := hkeys _ hposmem
  have hpne : (L.sent :: l).getLast (by simp) ≠ S.next := hfresh _ hpmem
  have hposne : pos ≠ S.next := hfresh _ hposmem
  -- `pos` is never strictly inside `l`
  have hlnepos : ∀ y ∈ l, y ≠ pos := by
    intro y hy hEq
    rcases hrest with ⟨_, hps⟩ | ⟨r1, hr, _⟩
    · exact hsentl (by rw [← hps, ← hEq]; exact hy)
    · exact hdisj hy (by rw [hEq, hr]; exact List.mem_cons_self _ _)
  -- nothing in `r` is the predecessor address
  have hrnep : ∀ x ∈ r, x ≠ (L.sent :: l).getLast (by simp) := by
    intro x hx hEq
    have hgl := List.getLast_mem (show L.sent :: l ≠ [] by simp)
    rw [← hEq] at hgl
    rcases List.mem_cons.mp hgl with h2 | h2
    · exact hsentr (h2 ▸ hx)
    · exact hdisj h2 hx
  -- the predecessor of `pos` is the last address before the insertion point
  have hpprev : prevOf S.mem pos = some ((L.sent :: l).getLast (by simp)) :=
    chain_last hchainL
  refine ⟨(L.sent :: l).getLast (by simp), hpprev, ?_⟩
  obtain ⟨posN, hlk⟩ := lookupF_isSome hposk
  have hposNp : posN.prev = (L.sent :: l).getLast (by simp) := by
    unfold prevOf at hpprev
    rw [hlk] at hpprev
    simpa using hpprev
  have heq : insertM S L pos v Fm.ok =
      IRes.ok (insertedState S pos ((L.sent :: l).getLast (by simp)) v)
        ⟨L.sent, L.sz + 1, L.alloc⟩ S.next := by
    rw [insertM_eq_ok hlk, hposNp]
  -- the six local link facts about the post-state memory
  have A1 : nextOf (insertedState S pos ((L.sent :: l).getLast (by simp)) v).mem
      ((L.sent :: l).getLast (by simp)) = some S.next := by
    unfold insertedState
    rw [nextOf_setPrevF, nextOf_setNextF, if_pos rfl]
    have hcl : lookupF ((S.next, (⟨(L.sent :: l).getLast (by simp), pos, some v⟩
        : NodeData T)) :: S.mem) ((L.sent :: l).getLast (by simp))
        = lookupF S.mem ((L.sent :: l).getLast (by simp)) := by
      simp [lookupF, hpne]
    rw [hcl]
    obtain ⟨nd, hnd⟩ := lookupF_isSome hpk
    rw [hnd]
    rfl
  have A2 : prevOf (insertedState S pos ((L.sent :: l).getLast (by simp)) v).mem pos
      = some S.next := by
    unfold insertedState
    rw [prevOf_setPrevF, if_pos rfl]
    have hk2 : pos ∈ keys (setNextF ((S.next,
        (⟨(L.sent :: l).getLast (by simp), pos, some v⟩ : NodeData T)) :: S.mem)
        ((L.sent :: l).getLast (by simp)) S.next) := by
      rw [keys_setNextF, keys_cons]
      exact List.mem_cons_of_mem _ hposk
    obtain ⟨nd, hnd⟩ := lookupF_isSome hk2
    rw [hnd]
    rfl
  have A3 : nextOf (insertedState S pos ((L.sent :: l).getLast (by simp)) v).mem S.next
      = some pos := by
    unfold insertedState
    rw [nextOf_setPrevF, nextOf_setNextF, if_neg (Ne.symm hpne), nextOf_cons, if_pos rfl]
  have A4 : prevOf (insertedState S pos ((L.sent :: l).getLast (by simp)) v).mem S.next
      = some ((L.sent :: l).getLast (by simp)) := by
    unfold insertedState
    rw [prevOf_setPrevF, if_neg (Ne.symm hposne), prevOf_setNextF, prevOf_cons, if_pos rfl]
  have A5 : ∀ c, c ≠ (L.sent :: l).getLast (by simp) → c ≠ S.next →
      nextOf (insertedState S pos ((L.sent :: l).getLast (by simp)) v).mem c
        = nextOf S.mem c := by
    intro c h1 h2
    unfold insertedState
    rw [nextOf_setPrevF, nextOf_setNextF, if_neg h1, nextOf_cons, if_neg h2]
  have A6 : ∀ c, c ≠ pos → c ≠ S.next →
      prevOf (insertedState S pos ((L.sent :: l).getLast (by simp)) v).mem c
        = prevOf S.mem c := by
    intro c h1 h2
    unfold insertedState
    rw [prevOf_setPrevF, if_neg h1, prevOf_setNextF, prevOf_cons, if_neg h2]
  refine ⟨heq, ?_, ?_, ?_, rfl, rfl, hpk, hposk⟩
  · -- wfS of the post-state
    simp only [insertedState, wfS]
    constructor
    · rw [keys_setPrevF, keys_setNextF, keys_cons]
      refine List.Nodup.cons ?_ hS.1
      intro hmem
      exact absurd (hlt _ hmem) (lt_irrefl _)
    constructor
    · intro a ha
      rw [keys_setPrevF, keys_setNextF, keys_cons] at ha
      rcases List.mem_cons.mp ha with h | h
      · omega
      · have := hlt a h; omega
    · intro a ha
      rcases List.mem_cons.mp ha with h | h
      · omega
      · have := hS.2.2 a h; omega
  · -- wfL of the post-state
    have hchainL' : chain (insertedState S pos ((L.sent :: l).getLast (by simp)) v).mem
        L.sent l S.next := by
      refine chain_retarget hchainL hnodupL ?_ A1 ?_ A4
      · intro y hy hyne
        exact A5 y hyne (hfresh y (hsub y hy))
      · intro y hy
        exact A6 y (hlnepos y hy) (hfresh y (hsub y (List.mem_cons_of_mem _ hy)))
    have hchainRest : chain (insertedState S pos ((L.sent :: l).getLast (by simp)) v).mem
        L.sent (l ++ S.next :: r) L.sent := by
      rcases hrest with ⟨hE, hps⟩ | ⟨r1, hr, hchainR⟩
      · subst hE
        subst hps
        rw [chain_snoc_iff]
        exact ⟨hchainL', A3, A2⟩
      · subst hr
        rw [chain_append_iff]
        refine ⟨hchainL', ⟨A3, A2⟩, ?_⟩
        refine chain_congr ?_ ?_ hchainR
        · intro x hx
          have hxr : x ∈ pos :: r1 := hx
          refine A5 x (hrnep x hxr) (hfresh x (hrsub x hxr))
        · intro x hx
          rcases List.mem_append.mp hx with h | h
          · have hxr : x ∈ pos :: r1 := List.mem_cons_of_mem _ h
            have hrnd : (pos :: r1).Nodup := (List.nodup_append.mp hndlr).2.1
            refine A6 x ?_ (hfresh x (hrsub x hxr))
            intro hEq
            exact (List.nodup_cons.mp hrnd).1 (hEq ▸ h)
          · simp only [List.mem_singleton] at h
            subst h
            refine A6 L.sent ?_ (hfresh L.sent (List.mem_cons_self _ _))
            intro hEq
            exact hsentr (by rw [hEq]; exact List.mem_cons_self _ _)
    refine ⟨hchainRest, ?_, ?_⟩
    · -- nodup of the extended ring
      have hit : S.next ∉ L.sent :: rs := fun h => (hfresh _ h) rfl
      have hperm : List.Perm (L.sent :: (l ++ S.next :: r)) (S.next :: L.sent :: rs) := by
        refine List.Perm.trans (List.Perm.cons _ List.perm_middle) ?_
        rw [hsplit]
        exact List.Perm.swap _ _ _
      rw [List.Perm.nodup_iff hperm]
      exact List.nodup_cons.mpr ⟨hit, hnodup⟩
    · simp only [hsz, hsplit, List.length_append, List.length_cons]
      omega
  · simp only [insertedState]
    rw [keys_setPrevF, keys_setNextF, keys_cons]

end LM

namespace LM

variable {T : Type}

/-- The state `erase` leaves behind (src lines 316-325): the two neighbours
are relinked around `pos`, the node at `pos` is destroyed and deallocated. -/
def erasedState (S : LState T) (pos p nx : Nat) : LState T :=
  ⟨removeEntry (setNextF (setPrevF S.mem nx p) p nx) pos, S.live.erase pos, S.next⟩

/-- Unfolding `eraseM` on a designated node. -/
theorem eraseM_eq {S : LState T} {L : LObj} {pos : Nat} {posN : NodeData T}
    (hlk : lookupF S.mem pos = some posN) :
    eraseM S L pos =
      some (erasedState S pos posN.prev posN.next, ⟨L.sent, L.sz - 1, L.alloc⟩,
        posN.next) := by
  simp [eraseM, hlk, erasedState]

/-- `erase` at a ring position: the node leaves the ring and the memory, its
successor is returned, and well-formedness is preserved. -/
theorem eraseM_ok_spec (S : LState T) (L : LObj) (rs l r : List Nat) (pos : Nat)
    (hS : wfS S) (hL : wfL S L rs) (hsplit : rs = l ++ pos :: r) :
    ∃ p nx, prevOf S.mem pos = some p ∧ nextOf S.mem pos = some nx ∧
      nx = (r ++ [L.sent]).headI ∧
      eraseM S L pos = some (erasedState S pos p nx, ⟨L.sent, L.sz - 1, L.alloc⟩, nx) ∧
      wfS (erasedState S pos p nx) ∧
      wfL (erasedState S pos p nx) ⟨L.sent, L.sz - 1, L.alloc⟩ (l ++ r) ∧
      (erasedState S pos p nx).live = S.live.erase pos ∧
      (erasedState S pos p nx).next = S.next := by
  obtain ⟨hchain, hnodup, hsz⟩ := hL
  have hkeys : ∀ x ∈ L.sent :: rs, x ∈ keys S.mem := wfL_ring_keys ⟨hchain, hnodup, hsz⟩
  have hndlr : (l ++ pos :: r).Nodup := by
    rw [← hsplit]; exact (List.nodup_cons.mp hnodup).2
  have hsentrs : L.sent ∉ rs := (List.nodup_cons.mp hnodup).1
  have hdisj : List.Disjoint l (pos :: r) := (List.nodup_append.mp hndlr).2.2
  have hndr : (pos :: r).Nodup := (List.nodup_append.mp hndlr).2.1
  have hposr : pos ∉ r := (List.nodup_cons.mp hndr).1
  have hsentl : L.sent ∉ l := fun h => hsentrs (hsplit ▸ List.mem_append_left _ h)
  have hsentr : L.sent ∉ pos :: r := fun h => hsentrs (hsplit ▸ List.mem_append_right _ h)
  have hnodupL : (L.sent :: l).Nodup :=
    List.nodup_cons.mpr ⟨hsentl, (List.nodup_append.mp hndlr).1⟩
  have hposl : pos ∉ L.sent :: l := by
    intro h
    rcases List.mem_cons.mp h with h1 | h1
    · exact hsentr (by rw [← h1]; exact List.mem_cons_self _ _)
    · exact hdisj h1 (List.mem_cons_self _ _)
  rw [hsplit, chain_append_iff] at hchain
  obtain ⟨hchainL, hchainR⟩ := hchain
  have hpprev : prevOf S.mem pos = some ((L.sent :: l).getLast (by simp)) :=
    chain_last hchainL
  have hpnext : nextOf S.mem pos = some ((r ++ [L.sent]).headI) := chain_first hchainR
  -- membership of the splice points
  have hpmem : (L.sent :: l).getLast (by simp) ∈ L.sent :: rs := by
    have := List.getLast_mem (show L.sent :: l ≠ [] by simp)
    rcases List.mem_cons.mp this with h | h
    · simp [h]
    · simp [hsplit, h]
  have hnxmem : (r ++ [L.sent]).headI ∈ L.sent :: rs := by
    cases r with
    | nil => simp
    | cons r0 r1 => simp [hsplit]
  have hposmem : pos ∈ L.sent :: rs := by simp [hsplit]
  have hpk : (L.sent :: l).getLast (by simp) ∈ keys S.mem := hkeys _ hpmem
  have hnxk : (r ++ [L.sent]).headI ∈ keys S.mem := hkeys _ hnxmem
  have hposk : pos ∈ keys S.mem := hkeys _ hposmem
  -- the splice points are distinct from the erased node
  have hppos : (L.sent :: l).getLast (by simp) ≠ pos := by
    intro h
    exact hposl (h ▸ List.getLast_mem _)
  have hnxpos : (r ++ [L.sent]).headI ≠ pos := by
    cases r with
    | nil =>
      intro h
      exact hsentr (by rw [← h]; simp)
    | cons r0 r1 =>
      intro h
      simp only [List.cons_append, List.headI] at h
      exact hposr (h ▸ List.mem_cons_self _ _)
  obtain ⟨posN, hlk⟩ := lookupF_isSome hposk
  have hposNp : posN.prev = (L.sent :: l).getLast (by simp) := by
    unfold prevOf at hpprev; rw [hlk] at hpprev; simpa using hpprev
  have hposNn : posN.next = (r ++ [L.sent]).headI := by
    unfold nextOf at hpnext; rw [hlk] at hpnext; simpa using hpnext
  refine ⟨(L.sent :: l).getLast (by simp), (r ++ [L.sent]).headI,
    hpprev, hpnext, rfl, ?_, ?_, ?_, rfl, rfl⟩
  · rw [eraseM_eq hlk, hposNp, hposNn]
  · -- wfS of the post-state
    simp only [erasedState, wfS]
    refine ⟨?_, ?_, ?_⟩
    · have hsub := keys_removeEntry_sublist
        (setNextF (setPrevF S.mem ((r ++ [L.sent]).headI) ((L.sent :: l).getLast (by simp)))
          ((L.sent :: l).getLast (by simp)) ((r ++ [L.sent]).headI)) pos
      rw [keys_setNextF, keys_setPrevF] at hsub
      exact hS.1.sublist hsub
    · intro a ha
      have hsub := keys_removeEntry_sublist
        (setNextF (setPrevF S.mem ((r ++ [L.sent]).headI) ((L.sent :: l).getLast (by simp)))
          ((L.sent :: l).getLast (by simp)) ((r ++ [L.sent]).headI)) pos
      rw [keys_setNextF, keys_setPrevF] at hsub
      exact hS.2.1 a (hsub.subset ha)
    · intro a ha
      exact hS.2.2 a (List.mem_of_mem_erase ha)
  · -- wfL of the post-state
    have B1 : nextOf (erasedState S pos ((L.sent :: l).getLast (by simp))
        ((r ++ [L.sent]).headI)).mem ((L.sent :: l).getLast (by simp))
        = some ((r ++ [L.sent]).headI) := by
      simp only [erasedState]
      rw [nextOf_removeEntry, if_neg hppos, nextOf_setNextF, if_pos rfl]
      have hk2 : (L.sent :: l).getLast (by simp) ∈ keys (setPrevF S.mem
          ((r ++ [L.sent]).headI) ((L.sent :: l).getLast (by simp))) := by
        rw [keys_setPrevF]; exact hpk
      obtain ⟨nd, hnd⟩ := lookupF_isSome hk2
      rw [hnd]
      rfl
    have B2 : prevOf (erasedState S pos ((L.sent :: l).getLast (by simp))
        ((r ++ [L.sent]).headI)).mem ((r ++ [L.sent]).headI)
        = some ((L.sent :: l).getLast (by simp)) := by
      simp only [erasedState]
      rw [prevOf_removeEntry, if_neg hnxpos, prevOf_setNextF, prevOf_setPrevF, if_pos rfl]
      obtain ⟨nd, hnd⟩ := lookupF_isSome hnxk
      rw [hnd]
      rfl
    have B3 : ∀ c, c ≠ (L.sent :: l).getLast (by simp) → c ≠ pos →
        nextOf (erasedState S pos ((L.sent :: l).getLast (by simp))
          ((r ++ [L.sent]).headI)).mem c = nextOf S.mem c := by
      intro c h1 h2
      simp only [erasedState]
      rw [nextOf_removeEntry, if_neg h2, nextOf_setNextF, if_neg h1, nextOf_setPrevF]
    have B4 : ∀ c, c ≠ (r ++ [L.sent]).headI → c ≠ pos →
        prevOf (erasedState S pos ((L.sent :: l).getLast (by simp))
          ((r ++ [L.sent]).headI)).mem c = prevOf S.mem c := by
      intro c h1 h2
      simp only [erasedState]
      rw [prevOf_removeEntry, if_neg h2, prevOf_setNextF, prevOf_setPrevF, if_neg h1]
    have hchain' : chain (erasedState S pos ((L.sent :: l).getLast (by simp))
        ((r ++ [L.sent]).headI)).mem L.sent (l ++ r) L.sent := by
      cases r with
      | nil =>
        -- the ring shrinks to `l`; retarget the chain into `pos` to the sentinel
        have h1 : chain (erasedState S pos ((L.sent :: l).getLast (by simp))
            (([] ++ [L.sent] : List Nat).headI)).mem L.sent l L.sent := by
          refine chain_retarget hchainL hnodupL ?_ ?_ ?_ ?_
          · intro y hy hyne
            refine B3 y hyne (fun h => hposl (h ▸ hy))
          · simpa using B1
          · intro y hy
            refine B4 y ?_ (fun h => hposl (h ▸ List.mem_cons_of_mem _ hy))
            simp only [List.nil_append, List.headI]
            intro h
            exact hsentl (h ▸ hy)
          · simpa using B2
        simpa using h1
      | cons r0 r1 =>
        rw [chain_append_iff]
        have hr0 : (((r0 :: r1) ++ [L.sent]).headI) = r0 := by simp
        constructor
        · -- chain from the sentinel through `l` now ends at `r0`
          refine chain_retarget hchainL hnodupL ?_ ?_ ?_ ?_
          · intro y hy hyne
            refine B3 y hyne (fun h => hposl (h ▸ hy))
          · rw [B1, hr0]
          · intro y hy
            refine B4 y ?_ (fun h => hposl (h ▸ List.mem_cons_of_mem _ hy))
            rw [hr0]
            intro h
            exact hdisj (h ▸ hy) (List.mem_cons_of_mem _ (List.mem_cons_self _ _))
          · rw [hr0] at B2 ⊢
            exact B2
        · -- the tail of the ring is untouched
          have hchainR1 : chain S.mem r0 r1 L.sent := hchainR.2
          refine chain_congr ?_ ?_ hchainR1
          · intro x hx
            have hxr : x ∈ pos :: r0 :: r1 := List.mem_cons_of_mem _ hx
            refine B3 x ?_ (fun h => hposr (by rw [← h]; simpa using hx))
            intro h
            have hgl := List.getLast_mem (show L.sent :: l ≠ [] by simp)
            rw [← h] at hgl
            rcases List.mem_cons.mp hgl with h2 | h2
            · exact hsentr (h2 ▸ hxr)
            · exact hdisj h2 hxr
          · intro x hx
            rw [hr0]
            rcases List.mem_append.mp hx with h | h
            · have hndr0 : (r0 :: r1).Nodup := (List.nodup_cons.mp hndr).2
              refine B4 x ?_ ?_
              · intro hEq
                subst hEq
                exact (List.nodup_cons.mp hndr0).1 h
              · intro hEq
                subst hEq
                exact hposr (List.mem_cons_of_mem _ h)
            · simp only [List.mem_singleton] at h
              subst h
              refine B4 L.sent ?_ ?_
              · intro hEq
                exact hsentr (hEq ▸ List.mem_cons_of_mem _ (List.mem_cons_self _ _))
              · intro hEq
                exact hsentr (hEq ▸ List.mem_cons_self _ _)
    refine ⟨hchain', ?_, ?_⟩
    · -- nodup of the shrunken ring
      have hsubl : List.Sublist (L.sent :: (l ++ r)) (L.sent :: (l ++ pos :: r)) := by
        refine List.Sublist.cons₂ _ ?_
        exact List.Sublist.append_left (List.sublist_cons_self pos r) l
      have : (L.sent :: (l ++ pos :: r)).Nodup := by rw [← hsplit]; exact hnodup
      exact this.sublist hsubl
    · simp only [hsz, hsplit, List.length_append, List.length_cons]
      omega

end LM

namespace LM

variable {T : Type}

/-- The loop of `List(count, value)` (src lines 118-127) and `List(count)`
(src lines 129-138): `count` calls of `push_back(value)` resp.
`emplace_back()` — both insert at `end()`, i.e. at the sentinel.  `plan i`
injects the failure mode of the `i`-th call; on a throw the constructor's
`catch` runs `destroy()` and rethrows, and the in-place sentinel then dies
with the partially built object. -/
def fillLoop (plan : Nat → Fm) (v : T) :
    LState T → LObj → Nat → Nat → Option LObj × LState T
  | S, L, 0, _ => (some L, S)
  | S, L, count + 1, i =>
    match insertM S L L.sent v (plan i) with
    | .ok S' L' _ => fillLoop plan v S' L' count (i + 1)
    | .thrown S' => (none, dtorList S' L)

/-- `List(count, value, allocator)` (src lines 118-127). -/
def ctorFill (S : LState T) (tag count : Nat) (v : T) (plan : Nat → Fm) :
    Option LObj × LState T :=
  match newList S tag with
  | (S0, L0) => fillLoop plan v S0 L0 count 0

/-- `List(count, allocator)` (src lines 129-138): `count` value-initialised
elements via `emplace_back`; `d` stands for the default-constructed value.
The link discipline is identical to `push_back` (src lines 87-99). -/
def ctorCount (S : LState T) (tag count : Nat) (d : T) (plan : Nat → Fm) :
    Option LObj × LState T :=
  match newList S tag with
  | (S0, L0) => fillLoop plan d S0 L0 count 0

/-- The loop of `List(const List& copy, alloc)` (src lines 140-149): walk
`copy`'s ring from `begin()` to `end()`, `push_back(*it)` each element.
Fuel-bounded walk; a well-formed source ring never exhausts it. -/
def copyLoop (plan : Nat → Fm) (bsent : Nat) :
    LState T → LObj → Nat → Nat → Nat → Option LObj × LState T
  | S, L, _, _, 0 => (none, dtorList S L)
  | S, L, cur, i, fuel + 1 =>
    if cur = bsent then (some L, S)
    else
      match lookupF S.mem cur with
      | none => (none, dtorList S L)
      | some nd =>
        match nd.key with
        | none => (none, dtorList S L)
        | some v =>
          match insertM S L L.sent v (plan i) with
          | .ok S' L' _ => copyLoop plan bsent S' L' nd.next (i + 1) fuel
          | .thrown S' => (none, dtorList S' L)

/-- `List(const List& copy, const Allocator& alloc)` (src lines 140-149). -/
def copyCtor (S : LState T) (tag : Nat) (b : LObj) (plan : Nat → Fm) :
    Option LObj × LState T :=
  match newList S tag with
  | (S0, L0) =>
    match lookupF S0.mem b.sent with
    | none => (none, dtorList S0 L0)
    | some nd => copyLoop plan b.sent S0 L0 nd.next 0 (S0.mem.length + 1)

/-- src lines 153-163, `List::operator=`: build the temporary
`List res(copy, POCCA ? copy.alloc : alloc)`; on success swap the two
sentinels' link fields and the allocator, take `res.sz`, run the three
fix-up writes, and let `res`'s destructor release the old nodes.  On a
throw inside the copy the error propagates with `*this` untouched. -/
def assignM (S : LState T) (a b : LObj) (pocca : Bool) (plan : Nat → Fm) :
    Option LObj × LState T :=
  match copyCtor S (if pocca then b.alloc else a.alloc) b plan with
  | (none, S1) => (none, S1)
  | (some res, S1) =>
    match lookupF S1.mem a.sent, lookupF S1.mem res.sent with
    | some aD, some rD =>
      -- std::swap(data, res.data)
      let m1 := setNextF (setPrevF S1.mem a.sent rD.prev) a.sent rD.next
      let m2 := setNextF (setPrevF m1 res.sent aD.prev) res.sent aD.next
      -- data.next->prev = &data
      let m3 := match lookupF m2 a.sent with
        | some nd => setPrevF m2 nd.next a.sent
        | none => m2
      -- data.prev->next = &data
      let m4 := match lookupF m3 a.sent with
        | some nd => setNextF m3 nd.prev a.sent
        | none => m3
      -- res.data.prev->next = &res.data
      let m5 := match lookupF m4 res.sent with
        | some nd => setNextF m4 nd.prev res.sent
        | none => m4
      -- res leaves scope: ~List() destroys through res's ring
      (some ⟨a.sent, res.sz, res.alloc⟩,
        dtorList ⟨m5, S1.live, S1.next⟩ res)
    | _, _ => (none, S1)

/-- One mutating operation of the size-invariant scenario; positions are
element indices resolved through the iterator walk. -/
inductive Op (T : Type) where
  | pushB (v : T)
  | pushF (v : T)
  | ins (i : Nat) (v : T)
  | popB
  | popF
  | er (i : Nat)
  | clearO
deriving Repr

/-- Apply one operation under its precondition; `none` when the
precondition (a valid position / nonempty list) is not met. -/
def applyOp (S : LState T) (L : LObj) : Op T → Option (LState T × LObj)
  | .pushB v =>
    match insertM S L L.sent v Fm.ok with
    | .ok S' L' _ => some (S', L')
    | .thrown _ => none
  | .pushF v =>
    match lookupF S.mem L.sent with
    | none => none
    | some nd =>
      match insertM S L nd.next v Fm.ok with
      | .ok S' L' _ => some (S', L')
      | .thrown _ => none
  | .ins i v =>
    if i ≤ L.sz then
      match walkN S.mem L.sent (i + 1) with
      | none => none
      | some pos =>
        match insertM S L pos v Fm.ok with
        | .ok S' L' _ => some (S', L')
        | .thrown _ => none
    else none
  | .popB =>
    if L.sz = 0 then none
    else
      match lookupF S.mem L.sent with
      | none => none
      | some nd =>
        match eraseM S L nd.prev with
        | none => none
        | some (S', L', _) => some (S', L')
  | .popF =>
    if L.sz = 0 then none
    else
      match lookupF S.mem L.sent with
      | none => none
      | some nd =>
        match eraseM S L nd.next with
        | none => none
        | some (S', L', _) => some (S', L')
  | .er i =>
    if i < L.sz then
      match walkN S.mem L.sent (i + 1) with
      | none => none
      | some pos =>
        match eraseM S L pos with
        | none => none
        | some (S', L', _) => some (S', L')
    else none
  | .clearO => some (clearM S L)

/-- Apply a whole operation sequence. -/
def applyOps (S : LState T) (L : LObj) : List (Op T) → Option (LState T × LObj)
  | [] => some (S, L)
  | op :: ops =>
    match applyOp S L op with
    | none => none
    | some (S', L') => applyOps S' L' ops

end LM

namespace LM

variable {T : Type}

/-- `pathTo mem cur xs stop`: following `next` links from `cur` visits
exactly the addresses `xs` and then arrives at `stop`. -/
def pathTo (mem : Mem T) : Nat → List Nat → Nat → Prop
  | cur, [], stop => cur = stop
  | cur, c :: cs, stop =>
    cur = c ∧ ∃ nd, lookupF mem cur = some nd ∧ pathTo mem nd.next cs stop

theorem pathTo_congr {m m' : Mem T} {cur stop : Nat} {xs : List Nat}
    (hagree : ∀ x ∈ xs, lookupF m' x = lookupF m x)
    (h : pathTo m cur xs stop) : pathTo m' cur xs stop := by
  induction xs generalizing cur with
  | nil => exact h
  | cons c cs ih =>
    obtain ⟨hc, nd, hlk, hrest⟩ := h
    refine ⟨hc, nd, ?_, ?_⟩
    · rw [hagree cur (hc ▸ List.mem_cons_self c cs), hlk]
    · exact ih (fun x hx => hagree x (List.mem_cons_of_mem c hx)) hrest

/-- A doubly linked chain yields a `next`-walk visiting its members. -/
theorem chain_pathTo {m : Mem T} {a b : Nat} {xs : List Nat}
    (h : chain m a xs b) : pathTo m ((xs ++ [b]).headI) xs b := by
  induction xs generalizing a with
  | nil => rfl
  | cons c cs ih =>
    obtain ⟨hadj, hrest⟩ := h
    have hfirst : nextOf m c = some ((cs ++ [b]).headI) := chain_first hrest
    unfold nextOf at hfirst
    cases hlk : lookupF m c with
    | none => rw [hlk] at hfirst; simp at hfirst
    | some nd =>
      rw [hlk] at hfirst
      simp at hfirst
      exact ⟨by simp, nd, hlk, by rw [hfirst]; exact ih hrest⟩

/-- The `destroy()` walk along a `next`-path removes exactly the visited
nodes from memory and releases exactly their allocations. -/
theorem destroyFrom_path {stop : Nat} :
    ∀ (xs : List Nat), xs.Nodup → stop ∉ xs →
    ∀ (m : Mem T) (live : List Nat) (cur fuel : Nat), pathTo m cur xs stop →
    xs.length ≤ fuel →
    destroyFrom m live cur stop fuel =
      (List.foldl removeEntry m xs, List.foldl List.erase live xs) := by
  intro xs
  induction xs with
  | nil =>
    intro _ _ m live cur fuel hpath _
    have hcur : cur = stop := hpath
    cases fuel with
    | zero => rfl
    | succ f => simp [destroyFrom, hcur]
  | cons c cs ih =>
    intro hnd hstop m live cur fuel hpath hfuel
    obtain ⟨hc, nd, hlk, hrest⟩ := hpath
    cases fuel with
    | zero => simp at hfuel
    | succ f =>
      have hcstop : cur ≠ stop := by
        rw [hc]
        intro hEq
        exact hstop (hEq ▸ List.mem_cons_self c cs)
      have hrest' : pathTo (removeEntry m cur) nd.next cs stop := by
        refine pathTo_congr ?_ hrest
        intro x hx
        rw [lookupF_removeEntry]
        have : x ≠ cur := by
          rw [hc]
          intro hEq
          exact (List.nodup_cons.mp hnd).1 (hEq ▸ hx)
        rw [if_neg this]
      have hrec := ih (List.nodup_cons.mp hnd).2
        (fun h => hstop (List.mem_cons_of_mem c h))
        (removeEntry m cur) (live.erase cur) nd.next f hrest' (by simpa using hfuel)
      subst hc
      simp only [destroyFrom, if_neg hcstop, hlk]
      rw [hrec]
      rfl

/-- `List::destroy()` on a well-formed list: memory loses exactly the ring
nodes, the live set loses exactly their allocations. -/
theorem destroyList_ring {S : LState T} {L : LObj} {rs : List Nat}
    (hL : wfL S L rs) :
    destroyList S L =
      (List.foldl removeEntry S.mem rs, List.foldl List.erase S.live rs) := by
  obtain ⟨hchain, hnodup, _⟩ := hL
  obtain ⟨nd, hlk⟩ := lookupF_isSome (chain_src_key hchain)
  have hfirst : nextOf S.mem L.sent = some ((rs ++ [L.sent]).headI) := chain_first hchain
  unfold nextOf at hfirst
  rw [hlk] at hfirst
  simp at hfirst
  have hpath : pathTo S.mem nd.next rs L.sent := by
    rw [hfirst]
    exact chain_pathTo hchain
  have hsubset : rs ⊆ keys S.mem := fun x hx => chain_keys hchain x hx
  have hlen : rs.length ≤ S.mem.length := by
    have h1 := (List.subperm_of_subset (List.nodup_cons.mp hnodup).2 hsubset).length_le
    have h2 : (keys S.mem).length = S.mem.length := List.length_map _ _
    omega
  unfold destroyList
  rw [hlk]
  exact destroyFrom_path rs (List.nodup_cons.mp hnodup).2
    (List.nodup_cons.mp hnodup).1 S.mem S.live nd.next (S.mem.length + 1) hpath
    (by omega)

end LM

namespace LM

variable {T : Type}

theorem mem_removeEntry {e : Nat × NodeData T} {mem : Mem T} {a : Nat}
    (h : e ∈ removeEntry mem a) : e ∈ mem ∧ e.1 ≠ a := by
  induction mem with
  | nil => simp [removeEntry] at h
  | cons f rest ih =>
    obtain ⟨b, nd⟩ := f
    by_cases hb : b = a
    · rw [removeEntry, if_pos hb] at h
      obtain ⟨h1, h2⟩ := ih h
      exact ⟨List.mem_cons_of_mem _ h1, h2⟩
    · rw [removeEntry, if_neg hb] at h
      rcases List.mem_cons.mp h with h1 | h1
      · exact ⟨h1 ▸ List.mem_cons_self _ _, by rw [h1]; exact hb⟩
      · obtain ⟨h2, h3⟩ := ih h1
        exact ⟨List.mem_cons_of_mem _ h2, h3⟩

theorem mem_foldl_removeEntry {e : Nat × NodeData T} :
    ∀ (rs : List Nat) (P : Mem T), e ∈ List.foldl removeEntry P rs →
      e ∈ P ∧ e.1 ∉ rs := by
  intro rs
  induction rs with
  | nil => intro P h; exact ⟨h, by simp⟩
  | cons c cs ih =>
    intro P h
    rw [List.foldl_cons] at h
    obtain ⟨h1, h2⟩ := ih (removeEntry P c) h
    obtain ⟨h3, h4⟩ := mem_removeEntry h1
    refine ⟨h3, ?_⟩
    intro hmem
    rcases List.mem_cons.mp hmem with h5 | h5
    · exact h4 h5
    · exact h2 h5

theorem foldl_removeEntry_append (rs : List Nat) :
    ∀ (P M : Mem T), (∀ x ∈ rs, x ∉ keys M) →
      List.foldl removeEntry (P ++ M) rs = List.foldl removeEntry P rs ++ M := by
  induction rs with
  | nil => intro P M _; rfl
  | cons c cs ih =>
    intro P M hdis
    rw [List.foldl_cons, List.foldl_cons, removeEntry_append,
      removeEntry_id (hdis c (List.mem_cons_self _ _))]
    exact ih (removeEntry P c) M (fun x hx => hdis x (List.mem_cons_of_mem _ hx))

theorem removeEntry_eq_nil {Q : Mem T} {a : Nat} (h : ∀ e ∈ Q, e.1 = a) :
    removeEntry Q a = [] := by
  induction Q with
  | nil => rfl
  | cons f rest ih =>
    obtain ⟨b, nd⟩ := f
    have hb : b = a := h (b, nd) (List.mem_cons_self _ _)
    rw [removeEntry, if_pos hb]
    exact ih (fun e he => h e (List.mem_cons_of_mem _ he))

theorem foldl_erase_rev :
    ∀ (rs l0 : List Nat), rs.Nodup → (∀ x ∈ rs, x ∉ l0) →
      List.foldl List.erase (rs.reverse ++ l0) rs = l0 := by
  intro rs
  induction rs with
  | nil => intro l0 _ _; rfl
  | cons c cs ih =>
    intro l0 hnd hdis
    rw [List.foldl_cons, List.reverse_cons, List.append_assoc,
      List.erase_append_right _ (by
        intro h
        exact (List.nodup_cons.mp hnd).1 (List.mem_reverse.mp h))]
    simp only [List.singleton_append, List.erase_cons_head]
    exact ih l0 (List.nodup_cons.mp hnd).2
      (fun x hx => hdis x (List.mem_cons_of_mem _ hx))

/-- Invariant of a list being freshly built on top of a base state `S₀`:
all its nodes and its sentinel live in a fresh prefix `P` of memory, the
ring is well formed, the live set grew by exactly the ring nodes, and every
fresh address is at least `S₀.next`. -/
def builtFrom (S₀ S : LState T) (L : LObj) (rs : List Nat) : Prop :=
  wfS S ∧ wfL S L rs ∧
  (∃ P, S.mem = P ++ S₀.mem ∧ List.Perm (keys P) (L.sent :: rs)) ∧
  S.live = rs.reverse ++ S₀.live ∧
  S.next = S₀.next + rs.length + 1 ∧
  L.sent = S₀.next ∧
  (∀ x ∈ L.sent :: rs, S₀.next ≤ x)

/-- `List(alloc)` produces a freshly built empty list. -/
theorem builtFrom_newList (S₀ : LState T) (tag : Nat) (hS₀ : wfS S₀) :
    builtFrom S₀ (newList S₀ tag).1 (newList S₀ tag).2 [] := by
  have hwfS : wfS (newList S₀ tag).1 := by
    refine ⟨?_, ?_, ?_⟩
    · show (keys ((S₀.next, (⟨S₀.next, S₀.next, none⟩ : NodeData T)) :: S₀.mem)).Nodup
      rw [keys_cons]
      exact List.Nodup.cons (fun h => absurd (hS₀.2.1 _ h) (lt_irrefl _)) hS₀.1
    · intro a ha
      show a < S₀.next + 1
      have h2 : a ∈ keys ((S₀.next, (⟨S₀.next, S₀.next, none⟩ : NodeData T)) :: S₀.mem) := ha
      rw [keys_cons] at h2
      rcases List.mem_cons.mp h2 with h | h
      · omega
      · have := hS₀.2.1 a h
        omega
    · intro a ha
      show a < S₀.next + 1
      have := hS₀.2.2 a ha
      omega
  have hwfL : wfL (newList S₀ tag).1 (newList S₀ tag).2 [] := by
    refine ⟨⟨?_, ?_⟩, by simp, rfl⟩
    · show nextOf ((S₀.next, (⟨S₀.next, S₀.next, none⟩ : NodeData T)) :: S₀.mem)
        S₀.next = some S₀.next
      simp [nextOf, lookupF]
    · show prevOf ((S₀.next, (⟨S₀.next, S₀.next, none⟩ : NodeData T)) :: S₀.mem)
        S₀.next = some S₀.next
      simp [prevOf, lookupF]
  refine ⟨hwfS, hwfL, ⟨[(S₀.next, ⟨S₀.next, S₀.next, none⟩)], rfl, by simp [keys, newList]⟩,
    rfl, rfl, rfl, ?_⟩
  intro x hx
  have h2 : x ∈ [S₀.next] := hx
  simp at h2
  omega

/-- One successful `push_back` extends a freshly built list by one node. -/
theorem builtFrom_step {S₀ S : LState T} {L : LObj} {rs : List Nat}
    (hS₀ : wfS S₀) (hB : builtFrom S₀ S L rs) (v : T) :
    ∃ S', insertM S L L.sent v Fm.ok =
        IRes.ok S' ⟨L.sent, L.sz + 1, L.alloc⟩ S.next ∧
      builtFrom S₀ S' ⟨L.sent, L.sz + 1, L.alloc⟩ (rs ++ [S.next]) := by
  obtain ⟨hS, hL, ⟨P, hPmem, hPkeys⟩, hlive, hnext, hsent, hbound⟩ := hB
  obtain ⟨p, hpprev, heq, hwfS', hwfL', hkeys', hlive', hnext', hpk0, hposk0⟩ :=
    insertM_ok_spec S L rs rs [] L.sent v hS hL (by simp) (by simp)
  refine ⟨insertedState S L.sent p v, heq, hwfS', hwfL', ?_, ?_, ?_, hsent, ?_⟩
  · -- the fresh memory prefix grows by the new node
    have hplast : p = (L.sent :: rs).getLast (by simp) := by
      have := chain_last hL.1
      rw [hpprev] at this
      exact (Option.some_inj.mp this)
    have hpring : p ∈ L.sent :: rs := hplast ▸ List.getLast_mem _
    have hpbound : S₀.next ≤ p := hbound _ hpring
    have hpnotM : p ∉ keys S₀.mem := by
      intro h
      exact absurd (hS₀.2.1 _ h) (by omega)
    have hsentnotM : L.sent ∉ keys S₀.mem := by
      intro h
      have := hS₀.2.1 _ h
      omega
    refine ⟨setPrevF (setNextF ((S.next, ⟨p, L.sent, some v⟩) :: P) p S.next)
      L.sent S.next, ?_, ?_⟩
    · show (insertedState S L.sent p v).mem = _
      simp only [insertedState]
      rw [hPmem]
      rw [show ((S.next, (⟨p, L.sent, some v⟩ : NodeData T)) :: (P ++ S₀.mem))
          = ((S.next, (⟨p, L.sent, some v⟩ : NodeData T)) :: P) ++ S₀.mem from rfl]
      rw [setNextF_append, setPrevF_append, setNextF_id hpnotM, setPrevF_id hsentnotM]
    · rw [keys_setPrevF, keys_setNextF, keys_cons]
      refine List.Perm.trans (List.Perm.cons _ hPkeys) ?_
      refine List.Perm.trans (List.Perm.swap _ _ _) ?_
      exact List.Perm.cons _ (List.perm_append_singleton _ _).symm
  · rw [hlive', hlive, List.reverse_append]
    simp
  · rw [hnext', hnext]
    simp only [List.length_append, List.length_cons, List.length_nil]
    omega
  · intro x hx
    rcases List.mem_cons.mp hx with h | h
    · exact hbound x (by simp [h])
    · rcases List.mem_append.mp h with h1 | h1
      · exact hbound x (List.mem_cons_of_mem _ h1)
      · simp only [List.mem_singleton] at h1
        subst h1
        omega

/-- Destroying a freshly built list (constructor `catch` + sentinel death)
restores exactly the base memory and live set. -/
theorem builtFrom_cleanup {S₀ S : LState T} {L : LObj} {rs : List Nat}
    (hS₀ : wfS S₀) (hB : builtFrom S₀ S L rs) (S1 : LState T)
    (hmem : S1.mem = S.mem) (hlive : S1.live = S.live) :
    (dtorList S1 L).mem = S₀.mem ∧ (dtorList S1 L).live = S₀.live := by
  obtain ⟨hS, hL, ⟨P, hPmem, hPkeys⟩, hliveS, hnext, hsent, hbound⟩ := hB
  have hL1 : wfL S1 L rs := by
    refine ⟨?_, hL.2.1, hL.2.2⟩
    rw [hmem]
    exact hL.1
  have hdes := destroyList_ring hL1
  have hdisM : ∀ x ∈ rs, x ∉ keys S₀.mem := by
    intro x hx h
    have h1 := hS₀.2.1 _ h
    have h2 := hbound x (List.mem_cons_of_mem _ hx)
    omega
  have hfold : List.foldl removeEntry S1.mem rs = List.foldl removeEntry P rs ++ S₀.mem := by
    rw [hmem, hPmem]
    exact foldl_removeEntry_append rs P S₀.mem hdisM
  have hsentnotrs : L.sent ∉ rs := (List.nodup_cons.mp hL.2.1).1
  have hallsent : ∀ e ∈ List.foldl removeEntry P rs, e.1 = L.sent := by
    intro e he
    obtain ⟨heP, hek⟩ := mem_foldl_removeEntry rs P he
    have : e.1 ∈ keys P := List.mem_map_of_mem Prod.fst heP
    have := hPkeys.mem_iff.mp this
    rcases List.mem_cons.mp this with h | h
    · exact h
    · exact absurd h hek
  have hsentnotM : L.sent ∉ keys S₀.mem := by
    intro h
    have := hS₀.2.1 _ h
    omega
  constructor
  · show (dtorList S1 L).mem = S₀.mem
    unfold dtorList
    rw [hdes]
    show removeEntry (List.foldl removeEntry S1.mem rs) L.sent = S₀.mem
    rw [hfold, removeEntry_append, removeEntry_eq_nil hallsent,
      removeEntry_id hsentnotM]
    simp
  · show (dtorList S1 L).live = S₀.live
    unfold dtorList
    rw [hdes]
    show List.foldl List.erase S1.live rs = S₀.live
    rw [hlive, hliveS]
    refine foldl_erase_rev rs S₀.live (List.nodup_cons.mp hL.2.1).2 ?_
    intro x hx h
    have h1 := hS₀.2.2 _ h
    have h2 := hbound x (List.mem_cons_of_mem _ hx)
    omega

end LM

namespace LM

variable {T : Type}

/-- The stored element at an address (`none` on the sentinel). -/
def keyOf (mem : Mem T) (a : Nat) : Option T := (lookupF mem a).bind NodeData.key

/-- A failing bulk-fill construction (src lines 118-138) destroys everything
it built: the base memory and live set are restored exactly. -/
theorem fillLoop_throws {S₀ : LState T} (hS₀ : wfS S₀) (plan : Nat → Fm) (v : T) :
    ∀ (count i : Nat) (S : LState T) (L : LObj) (rs : List Nat),
      builtFrom S₀ S L rs →
      (∃ m, i ≤ m ∧ m < i + count ∧ plan m ≠ Fm.ok ∧
        ∀ j, i ≤ j → j < m → plan j = Fm.ok) →
      ∃ S', fillLoop plan v S L count i = (none, S') ∧
        S'.mem = S₀.mem ∧ S'.live = S₀.live := by
  intro count
  induction count with
  | zero =>
    intro i S L rs hB hfail
    obtain ⟨m, h1, h2, _, _⟩ := hfail
    omega
  | succ c ih =>
    intro i S L rs hB hfail
    obtain ⟨m, h1, h2, hm, hpre⟩ := hfail
    by_cases hi : plan i = Fm.ok
    · have him : i ≠ m := fun h => hm (h ▸ hi)
      obtain ⟨S', heq, hB'⟩ := builtFrom_step hS₀ hB v
      obtain ⟨S'', hloop, hmem, hlive⟩ := ih (i + 1) S' ⟨L.sent, L.sz + 1, L.alloc⟩
        (rs ++ [S.next]) hB'
        ⟨m, by omega, by omega, hm, fun j hj1 hj2 => hpre j (by omega) hj2⟩
      refine ⟨S'', ?_, hmem, hlive⟩
      simp only [fillLoop, hi, heq]
      exact hloop
    · have hsentk : L.sent ∈ keys S.mem := chain_src_key hB.2.1.1
      obtain ⟨snd, hslk⟩ := lookupF_isSome hsentk
      cases hpi : plan i with
      | ok => exact absurd hpi hi
      | oom =>
        obtain ⟨hmem, hlive⟩ := builtFrom_cleanup hS₀ hB S rfl rfl
        refine ⟨dtorList S L, ?_, hmem, hlive⟩
        simp [fillLoop, hpi, insertM]
      | bad =>
        have heqI : insertM S L L.sent v Fm.bad = .thrown ⟨S.mem, S.live, S.next + 1⟩ := by
          simp [insertM, hslk]
        obtain ⟨hmem, hlive⟩ := builtFrom_cleanup hS₀ hB ⟨S.mem, S.live, S.next + 1⟩ rfl rfl
        refine ⟨dtorList ⟨S.mem, S.live, S.next + 1⟩ L, ?_, hmem, hlive⟩
        simp only [fillLoop, hpi, heqI]

/-- A failing copy loop (src lines 140-149) likewise restores the base
state: nothing it allocated survives, and the source ring is untouched. -/
theorem copyLoop_throws_aux {S : LState T} {b : LObj} {rsb : List Nat} (plan : Nat → Fm)
    (hS : wfS S) (hb : wfL S b rsb)
    (hkeysb : ∀ x ∈ rsb, keyOf S.mem x ≠ none) :
    ∀ (r done : List Nat), rsb = done ++ r →
    ∀ (Si : LState T) (Li : LObj) (rsi : List Nat) (fuel : Nat),
      builtFrom S Si Li rsi →
      (∃ m, done.length ≤ m ∧ m < rsb.length ∧ plan m ≠ Fm.ok ∧
        ∀ j, done.length ≤ j → j < m → plan j = Fm.ok) →
      r.length + 1 ≤ fuel →
      ∃ S', copyLoop plan b.sent Si Li ((r ++ [b.sent]).headI) done.length fuel
          = (none, S') ∧ S'.mem = S.mem ∧ S'.live = S.live := by
  intro r
  induction r with
  | nil =>
    intro done hsplit Si Li rsi fuel hB hfail _
    obtain ⟨m, h1, h2, _, _⟩ := hfail
    rw [hsplit] at h2
    simp at h2
    omega
  | cons r0 r1 ih =>
    intro done hsplit Si Li rsi fuel hB hfail hfuel
    obtain ⟨m, h1, h2, hm, hpre⟩ := hfail
    cases fuel with
    | zero => simp at hfuel
    | succ f =>
      have hcur : (((r0 :: r1) ++ [b.sent] : List Nat)).headI = r0 := by simp
      have hsentrsb : b.sent ∉ rsb := (List.nodup_cons.mp hb.2.1).1
      have hr0rsb : r0 ∈ rsb := by
        rw [hsplit]; exact List.mem_append_right _ (List.mem_cons_self _ _)
      have hr0sent : r0 ≠ b.sent := fun h => hsentrsb (h ▸ hr0rsb)
      have hchainb := hb.1
      rw [hsplit, chain_append_iff] at hchainb
      obtain ⟨hchdone, hchr⟩ := hchainb
      have hr0k : r0 ∈ keys S.mem := chain_src_key hchr
      have hr0lt : r0 < S.next := hS.2.1 _ hr0k
      obtain ⟨P, hPmem, hPkeys⟩ := hB.2.2.1
      have hr0P : r0 ∉ keys P := by
        intro h
        have h3 := hPkeys.mem_iff.mp h
        have h4 := hB.2.2.2.2.2.2 _ h3
        omega
      obtain ⟨nd, hndS⟩ := lookupF_isSome hr0k
      have hlkSi : lookupF Si.mem r0 = some nd := by
        rw [hPmem, lookupF_append_right _ hr0P, hndS]
      have hndnext : nd.next = ((r1 ++ [b.sent]).headI) := by
        have := chain_first hchr
        unfold nextOf at this
        rw [hndS] at this
        simpa using this
      have hndkey : ∃ v, nd.key = some v := by
        have hkey := hkeysb r0 hr0rsb
        unfold keyOf at hkey
        rw [hndS] at hkey
        simp only [Option.some_bind] at hkey
        cases hk : nd.key with
        | none => exact absurd hk hkey
        | some v => exact ⟨v, rfl⟩
      obtain ⟨v, hv⟩ := hndkey
      by_cases hi : plan done.length = Fm.ok
      · have him : done.length ≠ m := fun h => hm (h ▸ hi)
        obtain ⟨S', heq, hB'⟩ := builtFrom_step hS hB v
        obtain ⟨S'', hloop, hmem, hlive⟩ := ih (done ++ [r0])
          (by rw [hsplit, List.append_assoc]; rfl)
          S' ⟨Li.sent, Li.sz + 1, Li.alloc⟩ (rsi ++ [Si.next]) f hB'
          ⟨m, by simp; omega, h2, hm, fun j hj1 hj2 => hpre j (by simp at hj1; omega) hj2⟩
          (by simp at hfuel ⊢; omega)
        refine ⟨S'', ?_, hmem, hlive⟩
        rw [hcur]
        simp only [copyLoop, if_neg hr0sent, hlkSi, hv, hi, heq]
        have hlen : (done ++ [r0]).length = done.length + 1 := by simp
        rw [hlen] at hloop
        rw [← hndnext] at hloop
        exact hloop
      · have hsentk : Li.sent ∈ keys Si.mem := chain_src_key hB.2.1.1
        obtain ⟨snd, hslk⟩ := lookupF_isSome hsentk
        cases hpi : plan done.length with
        | ok => exact absurd hpi hi
        | oom =>
          obtain ⟨hmem, hlive⟩ := builtFrom_cleanup hS hB Si rfl rfl
          refine ⟨dtorList Si Li, ?_, hmem, hlive⟩
          rw [hcur]
          simp [copyLoop, if_neg hr0sent, hlkSi, hv, hpi, insertM]
        | bad =>
          have heqI : insertM Si Li Li.sent v Fm.bad
              = .thrown ⟨Si.mem, Si.live, Si.next + 1⟩ := by
            simp [insertM, hslk]
          obtain ⟨hmem, hlive⟩ := builtFrom_cleanup hS hB
            ⟨Si.mem, Si.live, Si.next + 1⟩ rfl rfl
          refine ⟨dtorList ⟨Si.mem, Si.live, Si.next + 1⟩ Li, ?_, hmem, hlive⟩
          rw [hcur]
          simp only [copyLoop, if_neg hr0sent, hlkSi, hv, hpi, heqI]

/-- A failing `List(copy, alloc)` restores the base state exactly. -/
theorem copyCtor_throws {S : LState T} {b : LObj} {rsb : List Nat} (plan : Nat → Fm)
    (tag : Nat) (hS : wfS S) (hb : wfL S b rsb)
    (hkeysb : ∀ x ∈ rsb, keyOf S.mem x ≠ none)
    (hfail : ∃ m, m < rsb.length ∧ plan m ≠ Fm.ok ∧ ∀ j, j < m → plan j = Fm.ok) :
    ∃ S', copyCtor S tag b plan = (none, S') ∧ S'.mem = S.mem ∧ S'.live = S.live := by
  have hbk : b.sent ∈ keys S.mem := chain_src_key hb.1
  have hblt : b.sent < S.next := hS.2.1 _ hbk
  obtain ⟨bD, hbD⟩ := lookupF_isSome hbk
  have hB0 := builtFrom_newList S tag hS
  have hlk0 : lookupF ((S.next, (⟨S.next, S.next, none⟩ : NodeData T)) :: S.mem) b.sent
      = some bD := by
    simp only [lookupF]
    rw [if_neg (by omega : ¬ b.sent = S.next)]
    exact hbD
  have hbDnext : bD.next = (rsb ++ [b.sent]).headI := by
    have := chain_first hb.1
    unfold nextOf at this
    rw [hbD] at this
    simpa using this
  have hlenb : rsb.length ≤ S.mem.length := by
    have h1 := (List.subperm_of_subset (List.nodup_cons.mp hb.2.1).2
      (fun x hx => chain_keys hb.1 x hx)).length_le
    have h2 : (keys S.mem).length = S.mem.length := List.length_map _ _
    omega
  obtain ⟨m, hm1, hm2, hm3⟩ := hfail
  obtain ⟨S', hloop, hmem, hlive⟩ := copyLoop_throws_aux plan hS hb hkeysb rsb [] rfl
    (newList S tag).1 (newList S tag).2 [] ((newList S tag).1.mem.length + 1) hB0
    ⟨m, by simp, hm1, hm2, fun j _ hj2 => hm3 j hj2⟩
    (by
      show rsb.length + 1 ≤ ((S.next, (⟨S.next, S.next, none⟩ : NodeData T))
        :: S.mem).length + 1
      simp
      omega)
  refine ⟨S', ?_, hmem, hlive⟩
  have hred : copyCtor S tag b plan = copyLoop plan b.sent (newList S tag).1
      (newList S tag).2 bD.next 0 ((newList S tag).1.mem.length + 1) := by
    simp only [copyCtor, newList]
    rw [hlk0]
  rw [hred, hbDnext]
  exact hloop

end LM

namespace LM

variable {T : Type}

/-- Claim C3 (strong exception guarantee of `operator=`, src lines 153-163):
if building the temporary copy `List res(copy, …)` fails, the error
propagates before any statement of `operator=` touches `*this`: memory and
the live allocation set are exactly as before the call, so the target keeps
its size, its elements in order and the very same backing nodes, and its
allocator field was never written. -/
theorem assignM_strong (S : LState T) (a b : LObj) (rsb : List Nat) (pocca : Bool)
    (plan : Nat → Fm) (hS : wfS S) (hb : wfL S b rsb)
    (hkeysb : ∀ x ∈ rsb, keyOf S.mem x ≠ none)
    (hfail : ∃ m, m < rsb.length ∧ plan m ≠ Fm.ok ∧ ∀ j, j < m → plan j = Fm.ok) :
    ∃ S', assignM S a b pocca plan = (none, S') ∧
      S'.mem = S.mem ∧ S'.live = S.live ∧
      elemsOf S'.mem a.sent = elemsOf S.mem a.sent := by
  obtain ⟨S', hcc, hmem, hlive⟩ :=
    copyCtor_throws plan (if pocca then b.alloc else a.alloc) hS hb hkeysb hfail
  refine ⟨S', ?_, hmem, hlive, by rw [hmem]⟩
  simp only [assignM, hcc]

end LM

namespace LM

variable {T : Type}

theorem keyOf_setNextF (m : Mem T) (a nx c : Nat) :
    keyOf (setNextF m a nx) c = keyOf m c := by
  unfold keyOf
  rw [lookupF_setNextF]
  by_cases h : c = a
  · subst h; cases lookupF m c <;> simp
  · simp [h]

theorem keyOf_setPrevF (m : Mem T) (a pv c : Nat) :
    keyOf (setPrevF m a pv) c = keyOf m c := by
  unfold keyOf
  rw [lookupF_setPrevF]
  by_cases h : c = a
  · subst h; cases lookupF m c <;> simp
  · simp [h]

/-- Unfolding `insertM` on the element-construction-failure path
(src lines 303-308): the `catch` deallocates the fresh node and rethrows;
memory and live set are exactly the ones before the call. -/
theorem insertM_bad {S : LState T} {L : LObj} {pos : Nat} {v : T}
    {posN : NodeData T} (hlk : lookupF S.mem pos = some posN) :
    insertM S L pos v Fm.bad = IRes.thrown ⟨S.mem, S.live, S.next + 1⟩ := by
  simp [insertM, hlk]

/-- Lookups away from the three touched addresses are untouched by `insert`. -/
theorem lookupF_insertedState {S : LState T} {pos p : Nat} {v : T} (c : Nat)
    (h1 : c ≠ pos) (h2 : c ≠ p) (h3 : c ≠ S.next) :
    lookupF (insertedState S pos p v).mem c = lookupF S.mem c := by
  simp only [insertedState]
  rw [lookupF_setPrevF, if_neg h1, lookupF_setNextF, if_neg h2]
  simp [lookupF, h3]

/-- The fresh node of a successful `insert` holds exactly the constructed
record `Node(iter.item->prev, iter.item, value)`. -/
theorem lookupF_insertedState_new {S : LState T} {pos p : Nat} {v : T}
    (hpos : pos ≠ S.next) (hp : p ≠ S.next) :
    lookupF (insertedState S pos p v).mem S.next = some ⟨p, pos, some v⟩ := by
  simp only [insertedState]
  rw [lookupF_setPrevF, if_neg (Ne.symm hpos), lookupF_setNextF, if_neg (Ne.symm hp)]
  simp [lookupF]

/-- Claim C5 (atomic `insert`, src lines 301-314): on element-construction
failure the just-allocated node is released and the list — memory, live
set, size, every link — is exactly as before; on success the ring gains one
node, `sz` grows by one, and apart from the fresh node only the two
neighbour links around `pos` change: `pos->prev->next` and `pos->prev`.
All other nodes, and the `key`/untouched link fields of the two neighbours,
are bit-for-bit unchanged. -/
theorem insertM_atomic (S : LState T) (L : LObj) (rs l r : List Nat) (pos : Nat) (v : T)
    (hS : wfS S) (hL : wfL S L rs) (hsplit : rs = l ++ r)
    (hpos : pos = (r ++ [L.sent]).headI) :
    (insertM S L pos v Fm.bad = IRes.thrown ⟨S.mem, S.live, S.next + 1⟩) ∧
    ∃ p, prevOf S.mem pos = some p ∧
      insertM S L pos v Fm.ok =
        IRes.ok (insertedState S pos p v) ⟨L.sent, L.sz + 1, L.alloc⟩ S.next ∧
      nextOf (insertedState S pos p v).mem p = some S.next ∧
      prevOf (insertedState S pos p v).mem pos = some S.next ∧
      (∀ c, c ≠ pos → c ≠ p → c ≠ S.next →
        lookupF (insertedState S pos p v).mem c = lookupF S.mem c) ∧
      (p ≠ pos → prevOf (insertedState S pos p v).mem p = prevOf S.mem p ∧
        nextOf (insertedState S pos p v).mem pos = nextOf S.mem pos) ∧
      keyOf (insertedState S pos p v).mem p = keyOf S.mem p ∧
      keyOf (insertedState S pos p v).mem pos = keyOf S.mem pos ∧
      wfL (insertedState S pos p v) ⟨L.sent, L.sz + 1, L.alloc⟩ (l ++ S.next :: r) ∧
      wfS (insertedState S pos p v) := by
  obtain ⟨p, hpprev, heq, hwfS2, hwfL2, hkeys2, hlive2, hnext2, hpk, hposk⟩ :=
    insertM_ok_spec S L rs l r pos v hS hL hsplit hpos
  have hplt : p < S.next := hS.2.1 _ hpk
  have hposlt : pos < S.next := hS.2.1 _ hposk
  obtain ⟨posN, hlk⟩ := lookupF_isSome hposk
  constructor
  · exact insertM_bad hlk
  refine ⟨p, hpprev, heq, ?_, ?_, ?_, ?_, ?_, ?_, hwfL2, hwfS2⟩
  · -- p->next = fresh node
    simp only [insertedState]
    rw [nextOf_setPrevF, nextOf_setNextF, if_pos rfl]
    have hcl : lookupF ((S.next, (⟨p, pos, some v⟩ : NodeData T)) :: S.mem) p
        = lookupF S.mem p := by
      simp [lookupF]
      intro h
      omega
    rw [hcl]
    obtain ⟨nd, hnd⟩ := lookupF_isSome hpk
    rw [hnd]
    rfl
  · -- pos->prev = fresh node
    simp only [insertedState]
    rw [prevOf_setPrevF, if_pos rfl]
    have hk2 : pos ∈ keys (setNextF ((S.next, (⟨p, pos, some v⟩ : NodeData T)) :: S.mem)
        p S.next) := by
      rw [keys_setNextF, keys_cons]
      exact List.mem_cons_of_mem _ hposk
    obtain ⟨nd, hnd⟩ := lookupF_isSome hk2
    rw [hnd]
    rfl
  · -- all other lookups untouched
    intro c h1 h2 h3
    exact lookupF_insertedState c h1 h2 h3
  · -- the untouched fields of the two neighbours
    intro hppos
    constructor
    · simp only [insertedState]
      rw [prevOf_setPrevF, if_neg hppos, prevOf_setNextF, prevOf_cons,
        if_neg (by omega : ¬ p = S.next)]
    · simp only [insertedState]
      rw [nextOf_setPrevF, nextOf_setNextF, if_neg (Ne.symm hppos), nextOf_cons,
        if_neg (by omega : ¬ pos = S.next)]
  · -- keys of p untouched
    simp only [insertedState]
    rw [keyOf_setPrevF, keyOf_setNextF]
    unfold keyOf
    rw [show lookupF ((S.next, (⟨p, pos, some v⟩ : NodeData T)) :: S.mem) p
        = lookupF S.mem p by simp [lookupF]; intro h; omega]
  · -- keys of pos untouched
    simp only [insertedState]
    rw [keyOf_setPrevF, keyOf_setNextF]
    unfold keyOf
    rw [show lookupF ((S.next, (⟨p, pos, some v⟩ : NodeData T)) :: S.mem) pos
        = lookupF S.mem pos by simp [lookupF]; intro h; omega]

end LM

namespace LM

variable {T : Type}

/-- Claim C9: a successful `insert(position, value)` returns an iterator to
the freshly created node (src line 313 `return iterator(it)`): its stored
element is `value` and its `next` link is `position`, so dereferencing the
returned iterator yields the inserted element and one increment lands on
`position`. -/
theorem insertM_returns (S : LState T) (L : LObj) (rs l r : List Nat) (pos : Nat) (v : T)
    (hS : wfS S) (hL : wfL S L rs) (hsplit : rs = l ++ r)
    (hpos : pos = (r ++ [L.sent]).headI) :
    ∃ p S', insertM S L pos v Fm.ok = IRes.ok S' ⟨L.sent, L.sz + 1, L.alloc⟩ S.next ∧
      lookupF S'.mem S.next = some ⟨p, pos, some v⟩ ∧
      keyOf S'.mem S.next = some v ∧
      nextOf S'.mem S.next = some pos := by
  obtain ⟨p, hpprev, heq, hwfS2, hwfL2, hkeys2, hlive2, hnext2, hpk, hposk⟩ :=
    insertM_ok_spec S L rs l r pos v hS hL hsplit hpos
  have hplt : p < S.next := hS.2.1 _ hpk
  have hposlt : pos < S.next := hS.2.1 _ hposk
  have hnew : lookupF (insertedState S pos p v).mem S.next = some ⟨p, pos, some v⟩ :=
    lookupF_insertedState_new (by omega) (by omega)
  refine ⟨p, insertedState S pos p v, heq, hnew, ?_, ?_⟩
  · unfold keyOf
    rw [hnew]
    rfl
  · unfold nextOf
    rw [hnew]
    rfl

/-- Counting the iterator walk along a `next`-path. -/
theorem walkLen_path {m : Mem T} {stop : Nat} :
    ∀ (xs : List Nat) (cur fuel : Nat), pathTo m cur xs stop → stop ∉ xs →
      xs.length + 1 ≤ fuel → walkLen m cur stop fuel = some xs.length := by
  intro xs
  induction xs with
  | nil =>
    intro cur fuel hpath _ hfuel
    cases fuel with
    | zero => simp at hfuel
    | succ f =>
      have hcur : cur = stop := hpath
      simp [walkLen, hcur]
  | cons c cs ih =>
    intro cur fuel hpath hstop hfuel
    obtain ⟨hc, nd, hlk, hrest⟩ := hpath
    cases fuel with
    | zero => simp at hfuel
    | succ f =>
      have hcstop : cur ≠ stop := by
        rw [hc]
        intro hEq
        exact hstop (hEq ▸ List.mem_cons_self c cs)
      have hrec := ih nd.next f hrest (fun h => hstop (List.mem_cons_of_mem c h))
        (by simp at hfuel ⊢; omega)
      simp [walkLen, hcstop, hlk, hrec]

/-- On a well-formed list, the iteration from `begin()` to `end()` meets
exactly `rs.length` nodes. -/
theorem ringLen_eq {S : LState T} {L : LObj} {rs : List Nat} (hL : wfL S L rs) :
    ringLen S.mem L.sent = some rs.length := by
  obtain ⟨hchain, hnodup, hsz⟩ := hL
  obtain ⟨nd, hlk⟩ := lookupF_isSome (chain_src_key hchain)
  have hfirst : nextOf S.mem L.sent = some ((rs ++ [L.sent]).headI) := chain_first hchain
  unfold nextOf at hfirst
  rw [hlk] at hfirst
  simp at hfirst
  have hpath : pathTo S.mem nd.next rs L.sent := by
    rw [hfirst]
    exact chain_pathTo hchain
  have hlen : rs.length ≤ S.mem.length := by
    have h1 := (List.subperm_of_subset (List.nodup_cons.mp hnodup).2
      (fun x hx => chain_keys hchain x hx)).length_le
    have h2 : (keys S.mem).length = S.mem.length := List.length_map _ _
    omega
  unfold ringLen
  rw [hlk]
  exact walkLen_path rs nd.next (S.mem.length + 1) hpath
    (List.nodup_cons.mp hnodup).1 (by omega)

/-- The iterator walk resolves index `i` along a `next`-path. -/
theorem walkN_path {m : Mem T} {stop : Nat} :
    ∀ (xs : List Nat) (cur : Nat), pathTo m cur xs stop →
      ∀ i, i ≤ xs.length → walkN m cur i = some ((xs.drop i ++ [stop]).headI) := by
  intro xs
  induction xs with
  | nil =>
    intro cur hpath i hi
    have h0 : i = 0 := by simpa using hi
    subst h0
    have hcur : cur = stop := hpath
    simp [walkN, hcur]
  | cons c cs ih =>
    intro cur hpath i hi
    obtain ⟨hc, nd, hlk, hrest⟩ := hpath
    cases i with
    | zero =>
      simp [walkN, hc]
    | succ j =>
      have hj : j ≤ cs.length := by simp at hi; omega
      have hrec := ih nd.next hrest j hj
      simp [walkN, hlk, hrec]

/-- `walkN` from the sentinel: position `i` of the iteration is the `i`-th
ring address (or the sentinel itself at `i = rs.length`). -/
theorem walkN_ring {S : LState T} {L : LObj} {rs : List Nat} (hL : wfL S L rs)
    (i : Nat) (hi : i ≤ rs.length) :
    walkN S.mem L.sent (i + 1) = some ((rs.drop i ++ [L.sent]).headI) := by
  obtain ⟨hchain, hnodup, hsz⟩ := hL
  obtain ⟨nd, hlk⟩ := lookupF_isSome (chain_src_key hchain)
  have hfirst : nextOf S.mem L.sent = some ((rs ++ [L.sent]).headI) := chain_first hchain
  unfold nextOf at hfirst
  rw [hlk] at hfirst
  simp at hfirst
  have hpath : pathTo S.mem nd.next rs L.sent := by
    rw [hfirst]
    exact chain_pathTo hchain
  simp only [walkN, hlk]
  exact walkN_path rs nd.next hpath i hi

end LM

namespace LM

variable {T : Type}

theorem lookupF_foldl_removeEntry {c : Nat} :
    ∀ (rs : List Nat) (m : Mem T), c ∉ rs →
      lookupF (List.foldl removeEntry m rs) c = lookupF m c := by
  intro rs
  induction rs with
  | nil => intro m _; rfl
  | cons r rtail ih =>
    intro m hc
    rw [List.foldl_cons, ih (removeEntry m r) (fun h => hc (List.mem_cons_of_mem _ h)),
      lookupF_removeEntry, if_neg (fun h => hc (by rw [h]; exact List.mem_cons_self _ _))]

theorem keys_foldl_removeEntry_sublist :
    ∀ (rs : List Nat) (m : Mem T),
      List.Sublist (keys (List.foldl removeEntry m rs)) (keys m) := by
  intro rs
  induction rs with
  | nil => intro m; exact List.Sublist.refl _
  | cons r rtail ih =>
    intro m
    exact (ih (removeEntry m r)).trans (keys_removeEntry_sublist m r)

theorem foldl_erase_sublist :
    ∀ (rs live : List Nat), List.Sublist (List.foldl List.erase live rs) live := by
  intro rs
  induction rs with
  | nil => intro live; exact List.Sublist.refl _
  | cons r rtail ih =>
    intro live
    exact (ih (live.erase r)).trans (List.erase_sublist r live)

/-- `clear()` (src lines 327-331) empties the list and leaves it well
formed: every node is destroyed and deallocated, the sentinel is re-tied to
itself, `sz` becomes 0. -/
theorem clearM_wf {S : LState T} {L : LObj} {rs : List Nat}
    (hS : wfS S) (hL : wfL S L rs) :
    wfS (clearM S L).1 ∧ wfL (clearM S L).1 (clearM S L).2 [] ∧
      (clearM S L).2 = ⟨L.sent, 0, L.alloc⟩ := by
  have hdes := destroyList_ring hL
  have hsentrs : L.sent ∉ rs := (List.nodup_cons.mp hL.2.1).1
  obtain ⟨snd, hslk⟩ := lookupF_isSome (chain_src_key hL.1)
  have hlkM1 : lookupF (List.foldl removeEntry S.mem rs) L.sent = some snd := by
    rw [lookupF_foldl_removeEntry rs S.mem hsentrs]
    exact hslk
  have hred : clearM S L =
      (⟨setNextF (setPrevF (List.foldl removeEntry S.mem rs) L.sent L.sent)
          L.sent L.sent, List.foldl List.erase S.live rs, S.next⟩,
       ⟨L.sent, 0, L.alloc⟩) := by
    unfold clearM
    rw [hdes]
  rw [hred]
  have hkeyssub : List.Sublist (keys (setNextF (setPrevF
      (List.foldl removeEntry S.mem rs) L.sent L.sent) L.sent L.sent)) (keys S.mem) := by
    rw [keys_setNextF, keys_setPrevF]
    exact keys_foldl_removeEntry_sublist rs S.mem
  refine ⟨⟨?_, ?_, ?_⟩, ⟨⟨?_, ?_⟩, by simp, rfl⟩, rfl⟩
  · exact hS.1.sublist hkeyssub
  · intro a ha
    exact hS.2.1 a (hkeyssub.subset ha)
  · intro a ha
    exact hS.2.2 a ((foldl_erase_sublist rs S.live).subset ha)
  · show nextOf _ L.sent = some L.sent
    rw [nextOf_setNextF, if_pos rfl, lookupF_setPrevF, if_pos rfl, hlkM1]
    rfl
  · show prevOf _ L.sent = some L.sent
    rw [prevOf_setNextF, prevOf_setPrevF, if_pos rfl, hlkM1]
    rfl

/-- The standing invariant of claim C7: globally sane memory plus a
well-formed ring for the list object. -/
def InvL (S : LState T) (L : LObj) : Prop := wfS S ∧ ∃ rs, wfL S L rs

/-- Every operation of claim C7, applied under its precondition, preserves
the invariant. -/
theorem applyOp_inv {S : LState T} {L : LObj} {op : Op T} {S' : LState T} {L' : LObj}
    (h : InvL S L) (ha : applyOp S L op = some (S', L')) : InvL S' L' := by
  obtain ⟨hS, rs, hL⟩ := h
  cases op with
  | pushB v =>
    obtain ⟨p, hpprev, heq, hwfS2, hwfL2, _, _, _, _, _⟩ :=
      insertM_ok_spec S L rs rs [] L.sent v hS hL (by simp) (by simp)
    simp only [applyOp, heq, Option.some_inj] at ha
    injection ha with h1 h2
    subst h1
    subst h2
    exact ⟨hwfS2, rs ++ [S.next], hwfL2⟩
  | pushF v =>
    obtain ⟨snd, hslk⟩ := lookupF_isSome (chain_src_key hL.1)
    have hfirst : snd.next = (rs ++ [L.sent]).headI := by
      have h2 := chain_first hL.1
      unfold nextOf at h2
      rw [hslk] at h2
      simpa using h2
    obtain ⟨p, hpprev, heq, hwfS2, hwfL2, _, _, _, _, _⟩ :=
      insertM_ok_spec S L rs [] rs snd.next v hS hL (by simp) hfirst
    simp only [applyOp, hslk, heq, Option.some_inj] at ha
    injection ha with h1 h2
    subst h1
    subst h2
    exact ⟨hwfS2, [] ++ S.next :: rs, hwfL2⟩
  | ins i v =>
    by_cases hi : i ≤ L.sz
    · have hi' : i ≤ rs.length := hL.2.2 ▸ hi
      have hw := walkN_ring hL i hi'
      obtain ⟨p, hpprev, heq, hwfS2, hwfL2, _, _, _, _, _⟩ :=
        insertM_ok_spec S L rs (rs.take i) (rs.drop i)
          ((rs.drop i ++ [L.sent]).headI) v hS hL (List.take_append_drop i rs).symm rfl
      simp only [applyOp, if_pos hi, hw, heq, Option.some_inj] at ha
      injection ha with h1 h2
      subst h1
      subst h2
      exact ⟨hwfS2, rs.take i ++ S.next :: rs.drop i, hwfL2⟩
    · simp only [applyOp, if_neg hi] at ha
      exact absurd ha (by simp)
  | popB =>
    by_cases h0 : L.sz = 0
    · simp only [applyOp, if_pos h0] at ha
      exact absurd ha (by simp)
    · have hne : rs ≠ [] := by
        intro hE
        rw [hE] at hL
        exact h0 (hL.2.2 ▸ rfl)
      obtain ⟨snd, hslk⟩ := lookupF_isSome (chain_src_key hL.1)
      have hlast : snd.prev = rs.getLast hne := by
        have h2 := chain_last hL.1
        unfold prevOf at h2
        rw [hslk] at h2
        simp at h2
        rw [h2]
        exact List.getLast_cons hne
      have hsplit : rs = rs.dropLast ++ rs.getLast hne :: [] :=
        (List.dropLast_append_getLast hne).symm
      obtain ⟨p, nx, hpprev, hpnext, hnx, heq, hwfS2, hwfL2, _, _⟩ :=
        eraseM_ok_spec S L rs rs.dropLast [] (rs.getLast hne) hS hL hsplit
      simp only [applyOp, if_neg h0, hslk, hlast, heq, Option.some_inj] at ha
      injection ha with h1 h2
      subst h1
      subst h2
      exact ⟨hwfS2, rs.dropLast ++ [], hwfL2⟩
  | popF =>
    by_cases h0 : L.sz = 0
    · simp only [applyOp, if_pos h0] at ha
      exact absurd ha (by simp)
    · cases hrs : rs with
      | nil =>
        rw [hrs] at hL
        exact absurd (hL.2.2 ▸ rfl) h0
      | cons r0 rtail =>
        rw [hrs] at hL
        obtain ⟨snd, hslk⟩ := lookupF_isSome (chain_src_key hL.1)
        have hfirst : snd.next = r0 := by
          have h2 := chain_first hL.1
          unfold nextOf at h2
          rw [hslk] at h2
          simpa using h2
        obtain ⟨p, nx, hpprev, hpnext, hnx, heq, hwfS2, hwfL2, _, _⟩ :=
          eraseM_ok_spec S L (r0 :: rtail) [] rtail r0 hS hL rfl
        simp only [applyOp, if_neg h0, hslk, hfirst, heq, Option.some_inj] at ha
        injection ha with h1 h2
        subst h1
        subst h2
        exact ⟨hwfS2, [] ++ rtail, hwfL2⟩
  | er i =>
    by_cases hi : i < L.sz
    · have hi' : i < rs.length := hL.2.2 ▸ hi
      have hw := walkN_ring hL i (le_of_lt hi')
      have hw' : walkN S.mem L.sent (i + 1) = some rs[i] := by
        rw [hw, List.drop_eq_getElem_cons hi']
        rfl
      have hsplit : rs = rs.take i ++ rs[i] :: rs.drop (i + 1) := by
        conv_lhs => rw [← List.take_append_drop i rs]
        rw [List.drop_eq_getElem_cons hi']
      obtain ⟨p, nx, hpprev, hpnext, hnx, heq, hwfS2, hwfL2, _, _⟩ :=
        eraseM_ok_spec S L rs (rs.take i) (rs.drop (i + 1)) rs[i] hS hL hsplit
      simp only [applyOp, if_pos hi, hw', heq, Option.some_inj] at ha
      injection ha with h1 h2
      subst h1
      subst h2
      exact ⟨hwfS2, rs.take i ++ rs.drop (i + 1), hwfL2⟩
    · simp only [applyOp, if_neg hi] at ha
      exact absurd ha (by simp)
  | clearO =>
    simp only [applyOp, Option.some_inj] at ha
    obtain ⟨hw1, hw2, _⟩ := clearM_wf hS hL
    rw [ha] at hw1 hw2
    exact ⟨hw1, [], hw2⟩

/-- Invariant preservation over a whole operation sequence. -/
theorem applyOps_inv {S : LState T} {L : LObj} :
    ∀ (ops : List (Op T)) {S' : LState T} {L' : LObj}, InvL S L →
      applyOps S L ops = some (S', L') → InvL S' L' := by
  intro ops
  induction ops generalizing S L with
  | nil =>
    intro S' L' h ha
    simp only [applyOps, Option.some_inj] at ha
    injection ha with h1 h2
    subst h1
    subst h2
    exact h
  | cons op rest ih =>
    intro S' L' h ha
    simp only [applyOps] at ha
    cases hop : applyOp S L op with
    | none => rw [hop] at ha; simp at ha
    | some SL =>
      obtain ⟨S1, L1⟩ := SL
      rw [hop] at ha
      exact ih (applyOp_inv h hop) ha

end LM

namespace LM

variable {T : Type}

/-- `adj` is decidable on concrete states. -/
instance instDecAdj (m : Mem T) (x y : Nat) : Decidable (adj m x y) :=
  inferInstanceAs (Decidable (nextOf m x = some y ∧ prevOf m y = some x))

/-- `chain` is decidable on concrete states. -/
def decChain (m : Mem T) : (a : Nat) → (xs : List Nat) → (b : Nat) →
    Decidable (chain m a xs b)
  | a, [], b => inferInstanceAs (Decidable (adj m a b))
  | a, c :: cs, b =>
    haveI : Decidable (chain m c cs b) := decChain m c cs b
    inferInstanceAs (Decidable (adj m a c ∧ chain m c cs b))

instance instDecChain (m : Mem T) (a b : Nat) (xs : List Nat) :
    Decidable (chain m a xs b) := decChain m a xs b

instance instDecWfS (S : LState T) : Decidable (wfS S) :=
  inferInstanceAs (Decidable ((keys S.mem).Nodup ∧
    (∀ a ∈ keys S.mem, a < S.next) ∧ ∀ a ∈ S.live, a < S.next))

instance instDecWfL (S : LState T) (L : LObj) (rs : List Nat) :
    Decidable (wfL S L rs) :=
  inferInstanceAs (Decidable (chain S.mem L.sent rs L.sent ∧
    (L.sent :: rs).Nodup ∧ L.sz = rs.length))

end LM

namespace LM

variable {T : Type}

/-- Claim C7 (size invariant): after any sequence of
`push_back`/`push_front`/`insert`/`pop_back`/`pop_front`/`erase`/`clear`
operations on a list, each applied under its precondition, the stored
`size()` equals the number of nodes met walking `next` links from
`sentinel.next` back to the sentinel — the length of the `begin()`-to-
`end()` iteration. -/
theorem C7_size_invariant (S₀ : LState T) (tag : Nat) (hS₀ : wfS S₀)
    (ops : List (Op T)) (S' : LState T) (L' : LObj)
    (h : applyOps (newList S₀ tag).1 (newList S₀ tag).2 ops = some (S', L')) :
    ringLen S'.mem L'.sent = some L'.sz := by
  have hInv0 : InvL (newList S₀ tag).1 (newList S₀ tag).2 := by
    have hB := builtFrom_newList S₀ tag hS₀
    exact ⟨hB.1, [], hB.2.1⟩
  obtain ⟨hS', rs', hL'⟩ := applyOps_inv ops hInv0 h
  rw [ringLen_eq hL', hL'.2.2]

end LM

/-! ## Claim C8: allocator handle equality (spec-modelled)

`StackAllocator` (src/stackallocator.h lines 15-59) defines **no**
`operator==`; only the spec (§6: "two allocator handles compare equal iff
they reference the same storage") fixes the comparison.  The handle's whole
state is the storage pointer `st` (line 17), and the rebinding/converting
constructor (lines 27-34) copies exactly that pointer, so the modelled
equality compares the referenced storage. -/

/-- An arena allocator handle: the identity of the `StackStorage` it
references (src line 17 `StackStorage<N>* st`) and a tag for its element
type parameter `T`. -/
structure SAHandle where
  st : Nat
  ty : Nat
deriving DecidableEq, Repr

/-- src lines 27-34: rebinding (or converting-copying) a handle to another
element type keeps the same storage pointer. -/
def rebindSA (h : SAHandle) (ty2 : Nat) : SAHandle := ⟨h.st, ty2⟩

/-- Modelled from the spec: `operator==` is missing from
src/stackallocator.h; per the spec two handles compare equal iff they
reference the same Arena Storage instance. -/
def eqSA (h1 h2 : SAHandle) : Bool := h1.st == h2.st

/-- Claim C8: two arena allocator handles — of any element types rebound
over the same storage — compare equal iff they reference the same Arena
Storage instance; in particular a handle equals any rebind of itself, and
handles over distinct storages compare unequal. -/
theorem C8_handle_equality (h1 h2 : SAHandle) (ty2 : Nat) :
    (eqSA h1 h2 = true ↔ h1.st = h2.st) ∧
    eqSA (rebindSA h1 ty2) h1 = true ∧
    (rebindSA h1 ty2).st = h1.st := by
  refine ⟨?_, ?_, rfl⟩
  · unfold eqSA
    exact Nat.beq_eq_true_eq _ _ ▸ Iff.rfl
  · unfold eqSA rebindSA
    simp

/-- Claim C1, counterexample to the claim as stated: with a 64-bit
`size_t`, `count * sizeof(T)` wraps.  For `N = 16`, `used = 0`,
`sizeof = alignof = 8` and `count = 2^61`, the mathematical
`used + padding + count*sizeof(T) = 2^64` exceeds `N`, yet the computed
check wraps to `0` and `allocate` succeeds (returning a pointer and leaving
the cursor advanced by `0`), instead of failing with out-of-memory. -/
theorem C1_counterexample :
    16 < 0 + padOf 8 0 + 2 ^ 61 * 8 ∧ allocate 8 8 16 0 (2 ^ 61) = some (0, 0) := by
  constructor
  · decide
  · decide

/-- Claim C1 (amended with the proviso that the padded request does not
overflow `size_t`, i.e. `used + padding + count*sizeof(T) < 2^64`):
`allocate` computes `padding` as `0` when `used` is `alignof(T)`-aligned
and `alignof(T) - used % alignof(T)` otherwise (the definition `padOf`);
if `used + padding + count*sizeof(T) > N` it fails with out-of-memory
leaving the cursor unchanged; otherwise it advances the cursor by the
padding, returns that `alignof(T)`-aligned offset, and advances the cursor
by `count*sizeof(T)`.  Consequently any request sequence whose aligned
total stays within `N` succeeds. -/
theorem C1_allocate (al sz N used count : Nat) (reqs : List Req)
    (hal : 0 < al) (hN : N < sizeTMod)
    (hnof : used + padOf al used + count * sz < sizeTMod) :
    (used + padOf al used + count * sz ≤ N →
      allocate al sz N used count =
        some (used + padOf al used, used + padOf al used + count * sz) ∧
      (used + padOf al used) % al = 0) ∧
    (N < used + padOf al used + count * sz → allocate al sz N used count = none) ∧
    ((∀ r ∈ reqs, 0 < r.al) → alignedTotal used reqs ≤ N →
      allocSeq N used reqs = some (alignedTotal used reqs)) := by
  refine ⟨?_, ?_, ?_⟩
  · intro hfit
    exact ⟨allocate_fits al sz N used count hal hN hfit, padOf_align al used hal⟩
  · intro hov
    exact allocate_overfull al sz N used count hnof hov
  · intro h1 h2
    exact allocSeq_fits N hN reqs h1 used h2

/-- Witness for C1 at concrete inputs: `used = 5`, `alignof = sizeof = 8`
gives padding `3`, pointer offset `8`, cursor `24`; a two-request sequence
of aligned total `20` succeeds. -/
theorem C1_allocate_witness :
    allocate 8 8 100 5 2 = some (8, 24) ∧ (8 : Nat) % 8 = 0 ∧
    allocSeq 100 0 [⟨8, 8, 2⟩, ⟨4, 4, 1⟩] = some 20 := by
  refine ⟨?_, ?_, ?_⟩
  · exact ((C1_allocate 8 8 100 5 2 [] (by decide) (by decide) (by decide)).1
      (by decide)).1
  · exact ((C1_allocate 8 8 100 5 2 [] (by decide) (by decide) (by decide)).1
      (by decide)).2
  · exact (C1_allocate 8 8 100 0 0 [⟨8, 8, 2⟩, ⟨4, 4, 1⟩] (by decide) (by decide)
      (by decide)).2.2 (by decide) (by decide)

/-- Claim C6: `deallocate(ptr, count)` rolls the cursor back by exactly
`count * sizeof(T)` when the freed region is the current tail
(`ptr + count*sizeof(T) == used`, in which case the new cursor is `ptr`),
and leaves the cursor unchanged in every other case; it never fails (it is
a total function). -/
theorem C6_deallocate (sz used ptr count : Nat) (hused : used < sizeTMod) :
    (ptr + count * sz = used →
      deallocate sz used ptr count = used - count * sz ∧ used - count * sz = ptr) ∧
    (ptr + count * sz ≠ used → deallocate sz used ptr count = used) := by
  constructor
  · intro htail
    have hcs : count * sz < sizeTMod := by omega
    unfold deallocate
    rw [if_pos htail, Nat.mod_eq_of_lt hcs]
    omega
  · intro hmiss
    unfold deallocate
    rw [if_neg hmiss]

/-- Witness for C6: freeing the tail region rolls the cursor back to the
region start; freeing a non-tail region is a no-op. -/
theorem C6_deallocate_witness :
    deallocate 8 24 8 2 = 8 ∧ deallocate 8 24 0 1 = 24 := by
  constructor
  · have h := (C6_deallocate 8 24 8 2 (by decide)).1 (by decide)
    rw [h.1]
  · exact (C6_deallocate 8 24 0 1 (by decide)).2 (by decide)

/-- Claim C10: allocate-then-deallocate of the same region is not a
perfect round trip — the cursor ends at `used + padding`, so the alignment
padding is permanently consumed; it is restored exactly iff `used` was
already `alignof(T)`-aligned.  The hypothesis `hnof` delimits defined
behavior: when it fails yet `allocate` succeeds, the size check wrapped and
the returned "region" of `count` elements extends past the buffer, so
deallocating that same region would evaluate the out-of-bounds pointer
`ptr + count` — undefined behavior, with nothing for the model to state.
Under `hnof`, success implies the region lies within the buffer and every
step of the pair is defined. -/
theorem C10_roundtrip (al sz N used count ptr u2 : Nat) (hal : 0 < al)
    (hN : N < sizeTMod) (hnof : used + padOf al used + count * sz < sizeTMod)
    (hsucc : allocate al sz N used count = some (ptr, u2)) :
    deallocate sz u2 ptr count = used + padOf al used ∧
    (used % al = 0 → deallocate sz u2 ptr count = used) ∧
    (used % al ≠ 0 → used < deallocate sz u2 ptr count) := by
  have hfit : used + padOf al used + count * sz ≤ N := by
    by_contra hov
    rw [allocate_overfull al sz N used count hnof (by omega)] at hsucc
    exact absurd hsucc (by simp)
  rw [allocate_fits al sz N used count hal hN hfit] at hsucc
  have hptr : ptr = used + padOf al used := by
    have := Option.some.inj hsucc
    exact (Prod.mk.injEq _ _ _ _ ▸ this).1.symm
  have hu2 : u2 = used + padOf al used + count * sz := by
    have := Option.some.inj hsucc
    exact (Prod.mk.injEq _ _ _ _ ▸ this).2.symm
  have htail : ptr + count * sz = u2 := by omega
  have hback : deallocate sz u2 ptr count = used + padOf al used := by
    unfold deallocate
    rw [if_pos htail, Nat.mod_eq_of_lt (by omega : count * sz < sizeTMod)]
    omega
  refine ⟨hback, ?_, ?_⟩
  · intro h0
    rw [hback]
    unfold padOf
    simp [h0]
  · intro hmis
    rw [hback]
    have : 0 < padOf al used := by
      unfold padOf
      have : 0 < used % al := Nat.pos_of_ne_zero hmis
      simp only [this, if_pos]
      have := Nat.mod_lt used hal
      omega
    omega

/-- Witness for C10: a misaligned cursor (`used = 5`, padding `3`) is not
restored — the pair ends at `8 = 5 + 3`, strictly above the original. -/
theorem C10_roundtrip_witness :
    deallocate 8 24 8 2 = 5 + padOf 8 5 ∧ 5 < deallocate 8 24 8 2 := by
  have h := C10_roundtrip 8 8 100 5 2 8 24 (by decide) (by decide) (by decide) (by decide)
  exact ⟨h.1, h.2.2 (by decide)⟩

namespace LM

variable {T : Type}

/-- Claim C4: for the bulk constructors `List(count, value)` (src lines
118-127), `List(count)` (src lines 129-138) and the copy constructor (src
lines 140-149), a failure while creating the `m`-th element (allocator
out-of-memory or element-construction throw) destroys and deallocates
every previously constructed node, releases the memory of the failed node
without it ever holding a constructed element, and propagates the error:
afterwards memory and the live-allocation set are exactly the pre-call
ones — zero live elements, no leaked node. -/
theorem C4_ctor_cleanup (S₀ : LState T) (hS₀ : wfS S₀) (tag : Nat) (plan : Nat → Fm)
    (m : Nat) (hfailm : plan m ≠ Fm.ok) (hpre : ∀ j, j < m → plan j = Fm.ok) :
    (∀ (count : Nat) (v : T), m < count →
      ∃ S', ctorFill S₀ tag count v plan = (none, S') ∧
        S'.mem = S₀.mem ∧ S'.live = S₀.live) ∧
    (∀ (count : Nat) (d : T), m < count →
      ∃ S', ctorCount S₀ tag count d plan = (none, S') ∧
        S'.mem = S₀.mem ∧ S'.live = S₀.live) ∧
    (∀ (b : LObj) (rsb : List Nat), wfL S₀ b rsb →
      (∀ x ∈ rsb, keyOf S₀.mem x ≠ none) → m < rsb.length →
      ∃ S', copyCtor S₀ tag b plan = (none, S') ∧
        S'.mem = S₀.mem ∧ S'.live = S₀.live) := by
  refine ⟨?_, ?_, ?_⟩
  · intro count v hcount
    obtain ⟨S', hfl, hm, hl⟩ := fillLoop_throws hS₀ plan v count 0
      (newList S₀ tag).1 (newList S₀ tag).2 [] (builtFrom_newList S₀ tag hS₀)
      ⟨m, by omega, by omega, hfailm, fun j _ hj => hpre j hj⟩
    exact ⟨S', hfl, hm, hl⟩
  · intro count d hcount
    obtain ⟨S', hfl, hm, hl⟩ := fillLoop_throws hS₀ plan d count 0
      (newList S₀ tag).1 (newList S₀ tag).2 [] (builtFrom_newList S₀ tag hS₀)
      ⟨m, by omega, by omega, hfailm, fun j _ hj => hpre j hj⟩
    exact ⟨S', hfl, hm, hl⟩
  · intro b rsb hb hkeysb hm
    exact copyCtor_throws plan tag hS₀ hb hkeysb ⟨m, hm, hfailm, fun j hj => hpre j hj⟩

end LM

open LM

/-- Always-succeeding failure plan (no injected failure). -/
def planOkN : Nat → Fm := fun _ => Fm.ok

/-- Failure plan that fails element construction on call index 2. -/
def planBad2 : Nat → Fm := fun i => if i = 2 then Fm.bad else Fm.ok

/-- The empty whole-program state. -/
def emptyS : LState Nat := ⟨[], [], 0⟩

/-- `List<int> a(5, 3)` built in the empty state. -/
def demoA : Option LObj × LState Nat := ctorFill emptyS 0 5 3 planOkN

/-- `List<int> b(4, 2)` built next to `a`. -/
def demoB : Option LObj × LState Nat := ctorFill demoA.2 1 4 2 planOkN

/-- The list object of `a` (sentinel 0, 5 elements). -/
def aObj : LObj := demoA.1.getD ⟨0, 0, 0⟩

/-- The list object of `b` (sentinel 6, 4 elements). -/
def bObj : LObj := demoB.1.getD ⟨0, 0, 0⟩

/-- `a = b` with both lists nonempty. -/
def demoAssign : Option LObj × LState Nat := assignM demoB.2 aObj bObj false planOkN

/-- `a = a` (self-assignment, nonempty). -/
def demoSelf : Option LObj × LState Nat := assignM demoB.2 aObj aObj false planOkN

/-- `List<int> e;` — an empty list built next to `a` and `b`. -/
def demoE : Option LObj × LState Nat := ctorFill demoB.2 2 0 0 planOkN

/-- The list object of the empty list `e` (sentinel 11, no elements). -/
def eObj : LObj := demoE.1.getD ⟨0, 0, 0⟩

/-- `a = e`: copy assignment from an empty source. -/
def demoAssignE : Option LObj × LState Nat := assignM demoE.2 aObj eObj false planOkN

/-- Claim C2, evaluated on the code: the claim's own concrete scenario
(`List<int> a(5,3); List<int> b(4,2); a = b;`) does hold — size 4,
elements `2,2,2,2`, ring well formed — and self-assignment of a nonempty
list is safe.  But the claim's "this holds for every source B, including
the case where B is empty" fails on the code: after `a = e` with `e`
empty, the swapped self-pointing sentinel links make the temporary's
destructor walk into `a`'s in-place sentinel: `a`'s sentinel address is
deallocated through the node allocator (UB in the source — it was never
allocator-allocated) and disappears from memory, while `a`'s five old
nodes are never destroyed and stay allocated (leaked).  `a` is corrupted,
not a copy of `e`. -/
theorem C2_assignment_eval :
    (demoAssign.1 = some ⟨0, 4, 0⟩ ∧
      elemsOf demoAssign.2.mem aObj.sent = some [2, 2, 2, 2] ∧
      ringLen demoAssign.2.mem aObj.sent = some 4) ∧
    (demoSelf.1 = some ⟨0, 5, 0⟩ ∧
      elemsOf demoSelf.2.mem aObj.sent = some [3, 3, 3, 3, 3]) ∧
    (eObj.sz = 0 ∧
      demoAssignE.1 = some ⟨0, 0, 0⟩ ∧
      lookupF demoAssignE.2.mem aObj.sent = none ∧
      elemsOf demoAssignE.2.mem aObj.sent = none ∧
      (1 : Nat) ∈ demoAssignE.2.live) := by
  refine ⟨⟨?_, ?_, ?_⟩, ⟨?_, ?_⟩, ⟨?_, ?_, ?_, ?_, ?_⟩⟩ <;> decide

/-- Witness for C3 at concrete inputs: assigning `b` to `a` with element
construction failing on the third copied element leaves the whole state —
including `a`'s memory — untouched. -/
theorem C3_assign_strong_witness :
    ∃ S', assignM demoB.2 aObj bObj false planBad2 = (none, S') ∧
      S'.mem = demoB.2.mem ∧ S'.live = demoB.2.live ∧
      elemsOf S'.mem aObj.sent = elemsOf demoB.2.mem aObj.sent :=
  assignM_strong demoB.2 aObj bObj [7, 8, 9, 10] false planBad2
    (by decide) (by decide) (by decide)
    ⟨2, by decide, by decide, by decide⟩

/-- Witness for C4 at concrete inputs: `List(4, 7)` whose third element
construction throws leaves nothing allocated. -/
theorem C4_ctor_cleanup_witness :
    ∃ S', ctorFill emptyS 0 4 7 planBad2 = (none, S') ∧
      S'.mem = emptyS.mem ∧ S'.live = emptyS.live :=
  (C4_ctor_cleanup emptyS (by decide) 0 planBad2 2 (by decide)
    (by decide)).1 4 7 (by decide)

/-- Witness for C5 at concrete inputs: inserting into `b` before its third
element with a throwing element constructor releases the fresh node and
leaves memory and live set exactly as before. -/
theorem C5_insert_atomic_witness :
    insertM demoB.2 bObj 9 42 Fm.bad
      = IRes.thrown ⟨demoB.2.mem, demoB.2.live, demoB.2.next + 1⟩ :=
  (insertM_atomic demoB.2 bObj [7, 8, 9, 10] [7, 8] [9, 10] 9 42
    (by decide) (by decide) rfl rfl).1

/-- Witness for C7 at concrete inputs: an eight-operation sequence mixing
pushes, indexed insert/erase, pops and `clear` ends with `size() = 1` and
an iteration of length 1. -/
theorem C7_size_invariant_witness :
    ringLen [(5, (⟨0, 0, some 9⟩ : NodeData Nat)), (0, ⟨5, 5, none⟩)] 0 = some 1 :=
  C7_size_invariant emptyS 0 (by decide)
    [Op.pushB 1, Op.pushF 2, Op.ins 1 5, Op.popB, Op.er 0, Op.pushB 7,
      Op.clearO, Op.pushB 9]
    ⟨[(5, ⟨0, 0, some 9⟩), (0, ⟨5, 5, none⟩)], [5], 6⟩ ⟨0, 1, 0⟩ (by decide)

/-- Witness for C9 at concrete inputs: the iterator returned by a
successful insert before `b`'s third element designates the fresh node,
stores the inserted value, and steps to the insertion position. -/
theorem C9_insert_returns_witness :
    ∃ p S', insertM demoB.2 bObj 9 42 Fm.ok
        = IRes.ok S' ⟨bObj.sent, bObj.sz + 1, bObj.alloc⟩ demoB.2.next ∧
      lookupF S'.mem demoB.2.next = some ⟨p, 9, some 42⟩ ∧
      keyOf S'.mem demoB.2.next = some 42 ∧
      nextOf S'.mem demoB.2.next = some 9 :=
  insertM_returns demoB.2 bObj [7, 8, 9, 10] [7, 8] [9, 10] 9 42
    (by decide) (by decide) rfl rfl
